import Mathlib

/-!
# ID3 decision tree (`src/main.cpp`): shallow embedding and verified properties

Modelling conventions.

* `std::string` tokens are `String`; `vector<T>` is `List T`.
* `int` attribute indices are `Int` (so that the sentinel `-1` of
  `bestAttribute` is the literal `-1`); `int` occurrence counts are `Nat`
  (a count never exceeds the row count, no overflow is modelled).
* `std::set<int>` is a `List Int` iterated front to back; a well-formed set is
  strictly ascending (`List.Pairwise (· < ·)`), stated as a hypothesis where
  a property depends on it. `std::set<string>` is the strictly ascending list
  produced by `setInsert`.
* `unordered_map<string,int>` is an association list. Its iteration order is
  unspecified in C++: it is a parameter `o : IterOrder`, an arbitrary
  rearrangement of the insertion-ordered entries.
* `double` arithmetic and `log2` are taken over the reals (`Real.logb 2`) in
  `entropy`, `informationGain`, `bestAttribute` and `buildTree`. The rounded
  arithmetic of the source is modelled by `entropyFl`, `informationGainFl` and
  `bestAttributeFl`, for the property of the selector that depends on it.
* `v[i]` outside the bounds of `v` is undefined behaviour in the source; the
  model reads the empty token there.
-/

namespace DecisionTree

/-- A node of the tree: `struct TreeNode`. The three fields are always present;
the source tells a leaf from an internal node by `children.empty()`.
`children` lists the entries of the `unordered_map` in insertion order. -/
inductive TreeNode where
  | mk (attr : String) (children : List (String × TreeNode)) (label : String)

namespace TreeNode

/-- Field `attribute`. -/
def attr : TreeNode → String
  | mk a _ _ => a

/-- Field `children`. -/
def children : TreeNode → List (String × TreeNode)
  | mk _ c _ => c

/-- Field `label`. -/
def label : TreeNode → String
  | mk _ _ l => l

/-- The constructor commented "Constructor for leaf node":
`TreeNode(const string& lbl) : label(lbl) {}`. The source declares both constructors with
the parameter list `(const string&)`; the model uses this one where the source builds a
leaf (`new TreeNode(counts.begin()->first)`, `new TreeNode(mostCommonLabel)`). -/
def leaf (lbl : String) : TreeNode := mk "" [] lbl

/-- The constructor commented "Constructor for internal node":
`TreeNode(const string& attr) : attribute(attr), label("") {}`, used where the source
builds an internal node (`new TreeNode(dataset.attributes[bestAttr])`), followed by the
insertions `node->children[value] = ...`. -/
def node (attr : String) (cs : List (String × TreeNode)) : TreeNode := mk attr cs ""

end TreeNode

/-- The class `Dataset`. -/
structure Dataset where
  data : List (List String)
  attributes : List String
  labelIndex : Int

/-- The read `v[i]` of a `vector<string>` at an `int` index. -/
def at_ (v : List String) (i : Int) : String :=
  if 0 ≤ i then v.getD i.toNat "" else ""

/-- Insertion `values.insert(v)` into a `std::set<string>`, kept in ascending order of
`operator<` (lexicographic on the characters). -/
def setInsert (v : String) : List String → List String
  | [] => [v]
  | x :: xs =>
    if v.data < x.data then v :: x :: xs else if v = x then x :: xs else x :: setInsert v xs

/-- The method `Dataset::getUniqueValues`. -/
def Dataset.getUniqueValues (d : Dataset) (attrIndex : Int) : List String :=
  d.data.foldl (fun values row => setInsert (at_ row attrIndex) values) []

/-- The statement `counts[k]++` on an `unordered_map<string,int>`: a new key is
entered with count 1. -/
def bump (k : String) : List (String × Nat) → List (String × Nat)
  | [] => [(k, 1)]
  | (k', c) :: rest => if k' = k then (k', c + 1) :: rest else (k', c) :: bump k rest

/-- The entries of the map built by `getClassCounts`, in order of first insertion. -/
def Dataset.insertedCounts (d : Dataset) : List (String × Nat) :=
  d.data.foldl (fun counts row => bump (at_ row d.labelIndex) counts) []

/-- An iteration order of `unordered_map<string,int>`: any rearrangement of the entries. -/
structure IterOrder where
  ord : List (String × Nat) → List (String × Nat)
  perm : ∀ l, (ord l).Perm l

/-- The iteration order that lists the keys as they were first inserted. -/
def IterOrder.insertion : IterOrder := ⟨fun l => l, fun l => List.Perm.refl l⟩

/-- The iteration order that lists the most recently inserted key first. -/
def IterOrder.reversed : IterOrder := ⟨List.reverse, List.reverse_perm⟩

/-- The method `Dataset::getClassCounts`, as the sequence of entries a range-for visits. -/
def Dataset.getClassCounts (o : IterOrder) (d : Dataset) : List (String × Nat) :=
  o.ord d.insertedCounts

/-- The method `Dataset::filter`. -/
def Dataset.filter (d : Dataset) (attrIndex : Int) (value : String) : Dataset :=
  { data := d.data.filter (fun row => at_ row attrIndex = value)
    attributes := d.attributes
    labelIndex := d.labelIndex }

/-- The function `entropy`. -/
noncomputable def entropy (o : IterOrder) (dataset : Dataset) : ℝ :=
  (dataset.getClassCounts o).foldl
    (fun e lc => e - ((lc.2 : ℝ) / (dataset.data.length : ℝ))
      * Real.logb 2 ((lc.2 : ℝ) / (dataset.data.length : ℝ))) 0

/-- The function `informationGain`. -/
noncomputable def informationGain (o : IterOrder) (dataset : Dataset) (attrIndex : Int) : ℝ :=
  (dataset.getUniqueValues attrIndex).foldl
    (fun gain value =>
      gain - (((dataset.filter attrIndex value).data.length : ℝ) / (dataset.data.length : ℝ))
        * entropy o (dataset.filter attrIndex value))
    (entropy o dataset)

/-- The loop of `bestAttribute` on the exact real gains: the state is
`(bestGain, bestAttr)`. The source compares rounded doubles, see `bestAttributeLoopFl`:
among candidates whose real gains are equal it can select another one than this loop. -/
noncomputable def bestAttributeLoop (o : IterOrder) (dataset : Dataset) :
    List Int → ℝ × Int → ℝ × Int
  | [], st => st
  | attr :: rest, st =>
    if informationGain o dataset attr > st.1
    then bestAttributeLoop o dataset rest (informationGain o dataset attr, attr)
    else bestAttributeLoop o dataset rest st

/-- The function `bestAttribute` on the exact real gains. -/
noncomputable def bestAttribute (o : IterOrder) (dataset : Dataset) (remainingAttrs : List Int) : Int :=
  (bestAttributeLoop o dataset remainingAttrs (-1, -1)).2

/-- The majority-label loop of `buildTree` (it occurs twice, identically): the state is
`(mostCommonLabel, maxCount)`, initially `("", 0)`. -/
def mostCommonLabel (counts : List (String × Nat)) : String :=
  (counts.foldl (fun (st : String × Nat) lc => if lc.2 > st.2 then (lc.1, lc.2) else st) ("", 0)).1

/-- The function `buildTree`. The recursion is on the size of `remainingAttrs`: the
attribute erased before the recursive calls is a member of it. -/
noncomputable def buildTree (o : IterOrder) (dataset : Dataset) (remainingAttrs : List Int) : TreeNode :=
  if (dataset.getClassCounts o).length = 1 then
    TreeNode.leaf ((dataset.getClassCounts o).headD ("", 0)).1
  else if remainingAttrs.isEmpty then
    TreeNode.leaf (mostCommonLabel (dataset.getClassCounts o))
  else if h : bestAttribute o dataset remainingAttrs = -1 then
    TreeNode.leaf (mostCommonLabel (dataset.getClassCounts o))
  else
    TreeNode.node (at_ dataset.attributes (bestAttribute o dataset remainingAttrs))
      ((dataset.getUniqueValues (bestAttribute o dataset remainingAttrs)).map (fun value =>
        (value, buildTree o (dataset.filter (bestAttribute o dataset remainingAttrs) value)
          (remainingAttrs.erase (bestAttribute o dataset remainingAttrs)))))
termination_by remainingAttrs.length
decreasing_by
  have loop : ∀ (cands : List Int) (st : ℝ × Int),
      (bestAttributeLoop o dataset cands st).2 = st.2
        ∨ (bestAttributeLoop o dataset cands st).2 ∈ cands := by
    intro cands
    induction cands with
    | nil => intro st; exact Or.inl rfl
    | cons a rest ih =>
      intro st
      unfold bestAttributeLoop
      split
      · rcases ih (informationGain o dataset a, a) with h1 | h1
        · exact Or.inr (by rw [h1]; exact List.mem_cons_self _ _)
        · exact Or.inr (List.mem_cons_of_mem _ h1)
      · rcases ih st with h1 | h1
        · exact Or.inl h1
        · exact Or.inr (List.mem_cons_of_mem _ h1)
  have hmem : bestAttribute o dataset remainingAttrs ∈ remainingAttrs := by
    rcases loop remainingAttrs (-1, -1) with h1 | h1
    · exact absurd h1 h
    · exact h1
  rw [List.length_erase_of_mem hmem]
  have := List.length_pos_of_mem hmem
  omega

mutual
/-- The function `classify`. -/
def classify : TreeNode → List String → List String → String
  | TreeNode.mk attr children label, inst, attributes =>
    if children.isEmpty then label
    else classifyAt children (inst.getD (attributes.indexOf attr) "") inst attributes
/-- The test `root->children.count(attrValue)` with the recursive call on
`root->children.at(attrValue)`, or the result "Unknown" when the key is absent. -/
def classifyAt : List (String × TreeNode) → String → List String → List String → String
  | [], _, _, _ => "Unknown"
  | (k, child) :: rest, attrValue, inst, attributes =>
    if k = attrValue then classify child inst attributes
    else classifyAt rest attrValue inst attributes
end

/-! ## Auxiliary definitions used in the statements and proofs -/

/-- The label column of a dataset, row by row. -/
def Dataset.labels (d : Dataset) : List String :=
  d.data.map (fun row => at_ row d.labelIndex)

/-- The column `attrIndex` of a dataset, row by row. -/
def Dataset.column (d : Dataset) (attrIndex : Int) : List String :=
  d.data.map (fun row => at_ row attrIndex)

/-- The map built by `counts[l]++` over a sequence of labels. -/
def countsOf (ls : List String) : List (String × Nat) :=
  ls.foldl (fun counts l => bump l counts) []

/-- The set built by `values.insert(v)` over a sequence of tokens. -/
def valuesOf (col : List String) : List String :=
  col.foldl (fun values v => setInsert v values) []

mutual
/-- The number of internal nodes (nodes with at least one child) on the longest path from
a node down to a leaf. -/
def TreeNode.depth : TreeNode → Nat
  | TreeNode.mk _ children _ => if children.isEmpty then 0 else 1 + depthMax children
/-- The largest depth among the children of a node. -/
def depthMax : List (String × TreeNode) → Nat
  | [] => 0
  | (_, child) :: rest => max (TreeNode.depth child) (depthMax rest)
end

mutual
/-- All nodes of a tree: the node itself and the nodes below each of its children. -/
def TreeNode.subtrees : TreeNode → List TreeNode
  | TreeNode.mk attr children label => TreeNode.mk attr children label :: subtreesOf children
/-- The nodes below a list of children. -/
def subtreesOf : List (String × TreeNode) → List TreeNode
  | [] => []
  | (_, child) :: rest => TreeNode.subtrees child ++ subtreesOf rest
end

mutual
/-- Whether the traversal made by `classify` meets an internal node at which the
instance's value for the split attribute is not a key of the children. As in `classify`,
a node is internal when `children` is not empty. -/
def missingChild : TreeNode → List String → List String → Bool
  | TreeNode.mk attr children _, inst, attributes =>
    if children.isEmpty then false
    else missingChildAt children (inst.getD (attributes.indexOf attr) "") inst attributes
/-- The search of `missingChild` through the children of one node. -/
def missingChildAt : List (String × TreeNode) → String → List String → List String → Bool
  | [], _, _, _ => true
  | (k, child) :: rest, attrValue, inst, attributes =>
    if k = attrValue then missingChild child inst attributes
    else missingChildAt rest attrValue inst attributes
end

/-- The recursive calls of `buildTree`: `Called o d c d' c'` when the call
`buildTree(d, c)` is, or leads through its split rule to, the call `buildTree(d', c')`. -/
inductive Called (o : IterOrder) : Dataset → List Int → Dataset → List Int → Prop
  | here (d : Dataset) (c : List Int) : Called o d c d c
  | down (d : Dataset) (c : List Int) (v : String) (d' : Dataset) (c' : List Int) :
      (d.getClassCounts o).length ≠ 1 → c ≠ [] → bestAttribute o d c ≠ -1 →
      v ∈ d.getUniqueValues (bestAttribute o d c) →
      Called o (d.filter (bestAttribute o d c) v) (c.erase (bestAttribute o d c)) d' c' →
      Called o d c d' c'

/-- The recursive calls of `buildTree` whose nodes `classify` visits for an instance:
`Path o attributes inst d c d' c'` when the traversal of `buildTree(d, c)` goes through the
node returned by `buildTree(d', c')`, every child on the way being present. -/
inductive Path (o : IterOrder) (attributes inst : List String) :
    Dataset → List Int → Dataset → List Int → Prop
  | here (d : Dataset) (c : List Int) : Path o attributes inst d c d c
  | down (d : Dataset) (c : List Int) (d' : Dataset) (c' : List Int) :
      (d.getClassCounts o).length ≠ 1 → c ≠ [] → bestAttribute o d c ≠ -1 →
      inst.getD (attributes.indexOf (at_ d.attributes (bestAttribute o d c))) ""
        ∈ d.getUniqueValues (bestAttribute o d c) →
      Path o attributes inst
        (d.filter (bestAttribute o d c)
          (inst.getD (attributes.indexOf (at_ d.attributes (bestAttribute o d c))) ""))
        (c.erase (bestAttribute o d c)) d' c' →
      Path o attributes inst d c d' c'

/-- Well-formed input of `buildTree`: the rows are rectangular, the label index is valid
in every row, and the candidates are a set (ascending) of valid non-label columns that have
a name in the attribute list. -/
def WellFormed (d : Dataset) (cands : List Int) : Prop :=
  (∀ row ∈ d.data, row.length = d.attributes.length + 1)
  ∧ 0 ≤ d.labelIndex ∧ d.labelIndex < d.attributes.length + 1
  ∧ (∀ a ∈ cands, 0 ≤ a ∧ a < d.attributes.length ∧ a ≠ d.labelIndex)
  ∧ cands.Pairwise (fun a b => a < b)

instance (d : Dataset) (cands : List Int) : Decidable (WellFormed d cands) := by
  unfold WellFormed
  infer_instance

/-- The dataset of `main`. -/
def weather : Dataset :=
  { data := [["sunny", "hot", "high", "weak", "no"],
             ["sunny", "hot", "high", "strong", "no"],
             ["overcast", "hot", "high", "weak", "yes"],
             ["rain", "mild", "high", "weak", "yes"],
             ["rain", "cool", "normal", "weak", "yes"],
             ["rain", "cool", "normal", "strong", "no"],
             ["overcast", "cool", "normal", "strong", "yes"],
             ["sunny", "mild", "high", "weak", "no"]]
    attributes := ["Outlook", "Temperature", "Humidity", "Wind"]
    labelIndex := 4 }

/-- The split rule of `buildTree` at the call `buildTree(d, c)` with result `t`: the node is
named after the selected attribute, its child keys are the unique values of that attribute
in `d`, there is at least one child, and the child under each key is the tree built from
the rows with that value and the candidates without the selected attribute. -/
def SplitRule (o : IterOrder) (d : Dataset) (c : List Int) (t : TreeNode) : Prop :=
  t.attr = at_ d.attributes (bestAttribute o d c)
  ∧ t.children.map Prod.fst = d.getUniqueValues (bestAttribute o d c)
  ∧ t.children ≠ []
  ∧ ∀ v ∈ d.getUniqueValues (bestAttribute o d c),
      t.children.lookup v
        = some (buildTree o (d.filter (bestAttribute o d c) v) (c.erase (bestAttribute o d c)))

/-- The rows of the weather dataset whose outlook is "sunny". -/
def weatherSunny : Dataset := weather.filter 0 "sunny"

/-- A one-row dataset whose only label is the token "Unknown". -/
def unknownLabelled : Dataset :=
  { data := [["a", "Unknown"]], attributes := ["A"], labelIndex := 1 }

/-- The entropy of a label distribution given by its list of counts and the total, summed
as `entropy` sums it. -/
noncomputable def countsEntropy (cs : List Nat) (n : Nat) : ℝ :=
  cs.foldl (fun (e : ℝ) (c : Nat) => e - ((c : ℝ) / (n : ℝ)) * Real.logb 2 ((c : ℝ) / (n : ℝ))) 0

/-- A two-row dataset whose two attribute columns carry the same name. -/
def sameNamed : Dataset :=
  { data := [["p", "q", "yes"], ["q", "p", "no"]], attributes := ["A", "A"], labelIndex := 2 }

/-- An iteration order of the `unordered_map<string, TreeNode*>` of children: any
rearrangement of the stored entries. -/
structure ChildOrder where
  ord : List (String × TreeNode) → List (String × TreeNode)
  perm : ∀ l, (ord l).Perm l

/-- The iteration order that visits the children as they are stored. -/
def ChildOrder.stored : ChildOrder := ⟨fun l => l, fun l => List.Perm.refl l⟩

/-- The function `printTree`, as the list of the lines it writes to `cout` (each
`<< endl` ends a line); `indent` is its second parameter. A `TreeNode` of the model is never
the null pointer, so the test `if (!node) return;` does not occur. -/
def printTree (co : ChildOrder) : TreeNode → String → List String
  | TreeNode.mk attr children label, indent =>
    if children.isEmpty then [indent ++ "Label: " ++ label]
    else (indent ++ "Attribute: " ++ attr) ::
      ((co.ord children).attach.map (fun p =>
        (indent ++ "  Value: " ++ p.1.1) :: printTree co p.1.2 (indent ++ "    "))).flatten
termination_by t _ => sizeOf t
decreasing_by
  have hmem : p.1 ∈ children := (co.perm children).mem_iff.mp p.2
  have h1 := List.sizeOf_lt_of_mem hmem
  have h2 : sizeOf p.1 = 1 + sizeOf p.1.1 + sizeOf p.1.2 := by
    cases p.1
    rfl
  simp only [TreeNode.mk.sizeOf_spec]
  omega

/-- A node with one child, which is a leaf. -/
def smallTree : TreeNode := TreeNode.node "A" [("x", TreeNode.leaf "l")]

/-! ## The selector in double arithmetic

The definitions above take `double` arithmetic over the reals. The following ones model the
arithmetic of the source: every operation yields the `double` nearest to the exact result
(IEEE 754 binary64, round to nearest, ties to even; overflow, underflow to subnormals,
infinities and NaN are not modelled). The function `log2` of `<cmath>` is not part of the
repository and is a parameter. -/

/-- A finite `double`, as the number `m * 2^e`. The operations below return zero as `⟨0, 0⟩`
and every other number with `2^52 ≤ |m| < 2^53`, so that equal doubles are equal terms. -/
structure Dbl where
  m : Int
  e : Int
deriving DecidableEq

/-- The rational number that a `double` denotes. -/
def Dbl.toRat (x : Dbl) : ℚ := (x.m : ℚ) * (2 : ℚ) ^ x.e

/-- The position of the leading binary digit of `n`, found by at most `fuel` halvings. -/
def leadingBit : Nat → Nat → Nat
  | 0, _ => 0
  | fuel + 1, n => if n < 2 then 0 else leadingBit fuel (n / 2) + 1

/-- The `double` nearest to `(n / d) * 2^s`, negated when `negative`: the quotient is scaled
to 53 significant bits and rounded to the nearest integer, a tie going to the even one; a
significand rounded up to `2^53` is written as `2^52` with the next exponent. -/
def roundRatio (negative : Bool) (n d : Nat) (s : Int) : Dbl :=
  if n = 0 then ⟨0, 0⟩ else
    let e0 : Int := (leadingBit n n : Int) - (leadingBit d d : Int)
    let e : Int := if n * 2 ^ (-e0).toNat < d * 2 ^ e0.toNat then e0 - 1 else e0
    let num : Nat := n * 2 ^ (52 - e).toNat
    let den : Nat := d * 2 ^ (e - 52).toNat
    let f : Nat := num / den
    let r : Nat := num % den
    let m : Nat :=
      if 2 * r < den then f else if den < 2 * r then f + 1 else if f % 2 = 0 then f else f + 1
    if m = 2 ^ 53
    then ⟨if negative then -(2 ^ 52 : Int) else (2 ^ 52 : Int), e - 51 + s⟩
    else ⟨if negative then -(m : Int) else (m : Int), e - 52 + s⟩

/-- The conversion `static_cast<double>(n)` of a count or size. -/
def Dbl.ofCount (n : Nat) : Dbl := roundRatio false n 1 0

/-- The negation `-x` of a double, which is exact. -/
def Dbl.neg (x : Dbl) : Dbl := ⟨-x.m, x.e⟩

/-- The quotient `x / y` of doubles. -/
def Dbl.div (x y : Dbl) : Dbl :=
  roundRatio (decide (x.m < 0) != decide (y.m < 0)) x.m.natAbs y.m.natAbs (x.e - y.e)

/-- The product `x * y` of doubles. -/
def Dbl.mul (x y : Dbl) : Dbl :=
  roundRatio (decide (x.m * y.m < 0)) (x.m * y.m).natAbs 1 (x.e + y.e)

/-- The numerator of `x` over the common power of two `2 ^ min x.e y.e`. -/
def Dbl.over (x y : Dbl) : Int := x.m * 2 ^ (x.e - min x.e y.e).toNat

/-- The difference `x - y` of doubles. -/
def Dbl.sub (x y : Dbl) : Dbl :=
  roundRatio (decide (x.over y - y.over x < 0)) (x.over y - y.over x).natAbs 1 (min x.e y.e)

/-- The comparison `x < y` of doubles. -/
def Dbl.lt (x y : Dbl) : Prop := x.over y < y.over x

instance (x y : Dbl) : Decidable (Dbl.lt x y) := by
  unfold Dbl.lt
  infer_instance

/-- The function `entropy` in double arithmetic. -/
def entropyFl (log2 : Dbl → Dbl) (o : IterOrder) (dataset : Dataset) : Dbl :=
  (dataset.getClassCounts o).foldl
    (fun e lc => Dbl.sub e
      (Dbl.mul (Dbl.div (Dbl.ofCount lc.2) (Dbl.ofCount dataset.data.length))
        (log2 (Dbl.div (Dbl.ofCount lc.2) (Dbl.ofCount dataset.data.length)))))
    ⟨0, 0⟩

/-- The function `informationGain` in double arithmetic. -/
def informationGainFl (log2 : Dbl → Dbl) (o : IterOrder) (dataset : Dataset)
    (attrIndex : Int) : Dbl :=
  (dataset.getUniqueValues attrIndex).foldl
    (fun gain value => Dbl.sub gain
      (Dbl.mul
        (Dbl.div (Dbl.ofCount (dataset.filter attrIndex value).data.length)
          (Dbl.ofCount dataset.data.length))
        (entropyFl log2 o (dataset.filter attrIndex value))))
    (entropyFl log2 o dataset)

/-- The loop of `bestAttribute` in double arithmetic: the state is `(bestGain, bestAttr)`,
the test is `gain > bestGain`. -/
def bestAttributeLoopFl (log2 : Dbl → Dbl) (o : IterOrder) (dataset : Dataset) :
    List Int → Dbl × Int → Dbl × Int
  | [], st => st
  | attr :: rest, st =>
    if Dbl.lt st.1 (informationGainFl log2 o dataset attr)
    then bestAttributeLoopFl log2 o dataset rest (informationGainFl log2 o dataset attr, attr)
    else bestAttributeLoopFl log2 o dataset rest st

/-- The function `bestAttribute` in double arithmetic. -/
def bestAttributeFl (log2 : Dbl → Dbl) (o : IterOrder) (dataset : Dataset)
    (remainingAttrs : List Int) : Int :=
  (bestAttributeLoopFl log2 o dataset remainingAttrs (⟨-1, 0⟩, -1)).2

/-- A function that agrees with `log2` of `<cmath>` at the two arguments that occur when the
labels of a dataset are equally frequent or all the same: `log2(0.5) = -1.0` and
`log2(1.0) = 0.0`, both exact. At the other arguments, where it is not used below, it
returns 0. -/
def log2Half (x : Dbl) : Dbl :=
  if x = Dbl.div (Dbl.ofCount 1) (Dbl.ofCount 2) then Dbl.neg (Dbl.ofCount 1) else ⟨0, 0⟩

/-- Six rows with two attributes whose information gains are equal over the reals: column 0
splits the rows 4 to 2, column 1 splits them 2 to 4, and each part has one label in each
half of its rows. -/
def tied : Dataset :=
  { data := [["a", "a", "y"], ["a", "a", "n"], ["a", "b", "y"], ["a", "b", "n"],
             ["b", "b", "y"], ["b", "b", "n"]]
    attributes := ["A", "B"]
    labelIndex := 2 }

/-! ## The data layer -/

theorem bump_keys (k : String) (cs : List (String × Nat)) :
    (bump k cs).map Prod.fst
      = if k ∈ cs.map Prod.fst then cs.map Prod.fst else cs.map Prod.fst ++ [k] := by
  induction cs with
  | nil => simp [bump]
  | cons x rest ih =>
    obtain ⟨k', c⟩ := x
    by_cases hk : k' = k
    · simp [bump, hk]
    · have hk' : ¬ k = k' := fun h => hk h.symm
      simp only [bump, hk, if_false, List.map_cons, ih, List.mem_cons, hk', false_or]
      split <;> simp

theorem bump_keys_nodup (k : String) (cs : List (String × Nat))
    (h : (cs.map Prod.fst).Nodup) : ((bump k cs).map Prod.fst).Nodup := by
  rw [bump_keys]
  split
  · exact h
  · rename_i hk
    exact List.Nodup.append h (List.nodup_singleton k) (by simpa using hk)

theorem bump_keys_mem (k k' : String) (cs : List (String × Nat)) :
    k' ∈ (bump k cs).map Prod.fst ↔ k' = k ∨ k' ∈ cs.map Prod.fst := by
  rw [bump_keys]
  split
  · rename_i hk
    constructor
    · intro h; exact Or.inr h
    · rintro (h | h)
      · rw [h]; exact hk
      · exact h
  · simp only [List.mem_append, List.mem_singleton]
    tauto

theorem bump_values (g : String → Nat) (k : String) (cs : List (String × Nat))
    (hnd : (cs.map Prod.fst).Nodup) (h : ∀ x ∈ cs, x.2 = g x.1)
    (hk : k ∉ cs.map Prod.fst → g k = 0) :
    ∀ x ∈ bump k cs, x.2 = g x.1 + if x.1 = k then 1 else 0 := by
  induction cs with
  | nil =>
    intro x hx
    simp only [bump, List.mem_singleton] at hx
    subst hx
    simp [hk (by simp)]
  | cons y rest ih =>
    obtain ⟨k', c⟩ := y
    have hnd' : (rest.map Prod.fst).Nodup := (List.nodup_cons.mp hnd).2
    have hk'notin : k' ∉ rest.map Prod.fst := (List.nodup_cons.mp hnd).1
    have hc : c = g k' := h (k', c) (List.mem_cons_self _ _)
    intro x hx
    by_cases hkk : k' = k
    · simp only [bump, hkk, if_true, List.mem_cons] at hx
      rcases hx with hx | hx
      · subst hx; simp [hc, hkk]
      · have hx1 : x.1 ≠ k := by
          intro e
          apply hk'notin
          rw [hkk, ← e]
          exact List.mem_map_of_mem _ hx
        simp [hx1, h x (List.mem_cons_of_mem _ hx)]
    · simp only [bump, hkk, if_false, List.mem_cons] at hx
      rcases hx with hx | hx
      · subst hx; simp [hc, hkk]
      · refine ih hnd' (fun z hz => h z (List.mem_cons_of_mem _ hz)) ?_ x hx
        intro hnot
        apply hk
        simp only [List.map_cons, List.mem_cons, not_or]
        exact ⟨fun e => hkk e.symm, hnot⟩

theorem insertedCounts_eq (d : Dataset) : d.insertedCounts = countsOf d.labels := by
  unfold Dataset.insertedCounts countsOf Dataset.labels
  rw [List.foldl_map]

theorem countsOf_snoc (ls : List String) (k : String) :
    countsOf (ls ++ [k]) = bump k (countsOf ls) := by
  simp [countsOf, List.foldl_append]

theorem countsOf_spec (ls : List String) :
    ((countsOf ls).map Prod.fst).Nodup
      ∧ (∀ k, k ∈ (countsOf ls).map Prod.fst ↔ k ∈ ls)
      ∧ ∀ x ∈ countsOf ls, x.2 = ls.count x.1 := by
  induction ls using List.reverseRecOn with
  | nil => simp [countsOf]
  | append_singleton ls k ih =>
    obtain ⟨hnd, hmem, hval⟩ := ih
    rw [countsOf_snoc]
    refine ⟨bump_keys_nodup k _ hnd, ?_, ?_⟩
    · intro k'
      rw [bump_keys_mem, hmem]
      simp only [List.mem_append, List.mem_singleton]
      tauto
    · intro x hx
      have := bump_values (fun l => ls.count l) k (countsOf ls) hnd hval
        (fun hnot => List.count_eq_zero.mpr (fun hin => hnot ((hmem k).mpr hin))) x hx
      rw [this, List.count_append]
      by_cases e : x.1 = k
      · simp [e]
      · have e' : ¬ k = x.1 := fun h => e h.symm
        simp [e, e', List.count_cons]

theorem countsOf_keys_nodup (ls : List String) : ((countsOf ls).map Prod.fst).Nodup :=
  (countsOf_spec ls).1

theorem countsOf_keys_mem (ls : List String) (k : String) :
    k ∈ (countsOf ls).map Prod.fst ↔ k ∈ ls :=
  (countsOf_spec ls).2.1 k

theorem countsOf_count (ls : List String) (x : String × Nat) (hx : x ∈ countsOf ls) :
    x.2 = ls.count x.1 :=
  (countsOf_spec ls).2.2 x hx

theorem countsOf_pos (ls : List String) (x : String × Nat) (hx : x ∈ countsOf ls) : 0 < x.2 := by
  rw [countsOf_count ls x hx]
  exact List.count_pos_iff.mpr ((countsOf_keys_mem ls x.1).mp (List.mem_map_of_mem _ hx))

theorem setInsert_mem (v x : String) (l : List String) :
    x ∈ setInsert v l ↔ x = v ∨ x ∈ l := by
  induction l with
  | nil => simp [setInsert]
  | cons y ys ih =>
    unfold setInsert
    split
    · simp
    · split
      · rename_i h
        subst h
        simp
      · simp only [List.mem_cons, ih]
        tauto

theorem setInsert_sorted (v : String) (l : List String)
    (h : l.Pairwise (fun a b => a.data < b.data)) :
    (setInsert v l).Pairwise (fun a b => a.data < b.data) := by
  induction l with
  | nil => simp [setInsert]
  | cons y ys ih =>
    have hy := (List.pairwise_cons.mp h).1
    have hys := (List.pairwise_cons.mp h).2
    unfold setInsert
    split
    · rename_i hlt
      refine List.pairwise_cons.mpr ⟨?_, h⟩
      intro z hz
      rcases List.mem_cons.mp hz with hz | hz
      · rw [hz]; exact hlt
      · exact lt_trans hlt (hy z hz)
    · rename_i hnlt
      split
      · exact h
      · rename_i hne
        refine List.pairwise_cons.mpr ⟨?_, ih hys⟩
        intro z hz
        rcases (setInsert_mem v z ys).mp hz with hz | hz
        · rw [hz]
          rcases lt_trichotomy v.data y.data with h1 | h1 | h1
          · exact absurd h1 hnlt
          · exact absurd (String.ext h1) hne
          · exact h1
        · exact hy z hz

theorem sorted_nodup (l : List String) (h : l.Pairwise (fun a b => a.data < b.data)) :
    l.Nodup := by
  refine List.Pairwise.imp ?_ h
  intro a b hab e
  rw [e] at hab
  exact lt_irrefl _ hab

theorem valuesOf_snoc (col : List String) (v : String) :
    valuesOf (col ++ [v]) = setInsert v (valuesOf col) := by
  simp [valuesOf, List.foldl_append]

theorem valuesOf_sorted (col : List String) :
    (valuesOf col).Pairwise (fun a b => a.data < b.data) := by
  induction col using List.reverseRecOn with
  | nil => simp [valuesOf]
  | append_singleton col v ih => rw [valuesOf_snoc]; exact setInsert_sorted v _ ih

theorem valuesOf_nodup (col : List String) : (valuesOf col).Nodup :=
  sorted_nodup _ (valuesOf_sorted col)

theorem valuesOf_mem (col : List String) (x : String) : x ∈ valuesOf col ↔ x ∈ col := by
  induction col using List.reverseRecOn with
  | nil => simp [valuesOf]
  | append_singleton col v ih =>
    rw [valuesOf_snoc, setInsert_mem, ih]
    simp only [List.mem_append, List.mem_singleton]
    tauto

theorem getUniqueValues_eq (d : Dataset) (a : Int) :
    d.getUniqueValues a = valuesOf (d.column a) := by
  unfold Dataset.getUniqueValues valuesOf Dataset.column
  rw [List.foldl_map]

theorem getUniqueValues_nodup (d : Dataset) (a : Int) : (d.getUniqueValues a).Nodup := by
  rw [getUniqueValues_eq]; exact valuesOf_nodup _

theorem mem_getUniqueValues (d : Dataset) (a : Int) (v : String) :
    v ∈ d.getUniqueValues a ↔ ∃ row ∈ d.data, at_ row a = v := by
  rw [getUniqueValues_eq, valuesOf_mem]
  simp [Dataset.column]

theorem mem_filter_data (d : Dataset) (a : Int) (v : String) (row : List String) :
    row ∈ (d.filter a v).data ↔ row ∈ d.data ∧ at_ row a = v := by
  simp [Dataset.filter]

theorem filter_nonempty (d : Dataset) (a : Int) (v : String) (hv : v ∈ d.getUniqueValues a) :
    (d.filter a v).data ≠ [] := by
  obtain ⟨row, hrow, hval⟩ := (mem_getUniqueValues d a v).mp hv
  exact List.ne_nil_of_mem ((mem_filter_data d a v row).mpr ⟨hrow, hval⟩)

theorem getUniqueValues_ne_nil (d : Dataset) (a : Int) (h : d.data ≠ []) :
    d.getUniqueValues a ≠ [] := by
  obtain ⟨row, hrow⟩ := List.exists_mem_of_ne_nil _ h
  exact List.ne_nil_of_mem ((mem_getUniqueValues d a _).mpr ⟨row, hrow, rfl⟩)

theorem getUniqueValues_nil (d : Dataset) (a : Int) (h : d.data = []) :
    d.getUniqueValues a = [] := by
  simp [Dataset.getUniqueValues, h]

theorem mem_getClassCounts (o : IterOrder) (d : Dataset) (x : String × Nat) :
    x ∈ d.getClassCounts o ↔ x ∈ countsOf d.labels := by
  unfold Dataset.getClassCounts
  rw [insertedCounts_eq]
  exact (o.perm _).mem_iff

theorem getClassCounts_perm (o : IterOrder) (d : Dataset) :
    (d.getClassCounts o).Perm (countsOf d.labels) := by
  unfold Dataset.getClassCounts
  rw [insertedCounts_eq]
  exact o.perm _

theorem getClassCounts_label_mem (o : IterOrder) (d : Dataset) (x : String × Nat)
    (hx : x ∈ d.getClassCounts o) : ∃ row ∈ d.data, at_ row d.labelIndex = x.1 := by
  have h1 := (mem_getClassCounts o d x).mp hx
  have h2 := (countsOf_keys_mem d.labels x.1).mp (List.mem_map_of_mem _ h1)
  simpa [Dataset.labels] using h2

theorem getClassCounts_pos (o : IterOrder) (d : Dataset) (x : String × Nat)
    (hx : x ∈ d.getClassCounts o) : 0 < x.2 :=
  countsOf_pos _ x ((mem_getClassCounts o d x).mp hx)

theorem getClassCounts_ne_nil (o : IterOrder) (d : Dataset) (h : d.data ≠ []) :
    d.getClassCounts o ≠ [] := by
  obtain ⟨row, hrow⟩ := List.exists_mem_of_ne_nil _ h
  have h1 : at_ row d.labelIndex ∈ (countsOf d.labels).map Prod.fst :=
    (countsOf_keys_mem _ _).mpr (List.mem_map_of_mem _ hrow)
  obtain ⟨x, hx, _⟩ := List.mem_map.mp h1
  exact List.ne_nil_of_mem ((mem_getClassCounts o d x).mpr hx)

/-! ## Entropy and information gain as finite sums -/

theorem foldl_sub_eq {α : Type} (f : α → ℝ) (l : List α) (a : ℝ) :
    l.foldl (fun e x => e - f x) a = a - (l.map f).sum := by
  induction l generalizing a with
  | nil => simp
  | cons x xs ih => simp only [List.foldl_cons, ih, List.map_cons, List.sum_cons]; ring

theorem mul_logb_two (p : ℝ) : p * Real.logb 2 p = -(Real.negMulLog p / Real.log 2) := by
  unfold Real.logb Real.negMulLog
  ring

theorem log_two_pos : 0 < Real.log 2 := Real.log_pos (by norm_num)

/-- The entropy is the sum, over the distinct labels, of `-(c/n) * log2 (c/n)`; it does not
depend on the iteration order of the count map. -/
theorem entropy_eq_sum (o : IterOrder) (d : Dataset) :
    entropy o d = ∑ l in d.labels.toFinset,
      Real.negMulLog ((d.labels.count l : ℝ) / (d.data.length : ℝ)) / Real.log 2 := by
  unfold entropy
  rw [foldl_sub_eq (fun lc : String × Nat => ((lc.2 : ℝ) / (d.data.length : ℝ))
      * Real.logb 2 ((lc.2 : ℝ) / (d.data.length : ℝ)))]
  rw [List.Perm.sum_eq (List.Perm.map _ (getClassCounts_perm o d))]
  have hmap : (countsOf d.labels).map (fun lc : String × Nat =>
        ((lc.2 : ℝ) / (d.data.length : ℝ)) * Real.logb 2 ((lc.2 : ℝ) / (d.data.length : ℝ)))
      = ((countsOf d.labels).map Prod.fst).map (fun l =>
        -(Real.negMulLog ((d.labels.count l : ℝ) / (d.data.length : ℝ)) / Real.log 2)) := by
    rw [List.map_map]
    apply List.map_congr_left
    intro x hx
    simp only [Function.comp]
    rw [countsOf_count _ x hx, mul_logb_two]
  rw [hmap, ← List.sum_toFinset _ (countsOf_keys_nodup d.labels)]
  have hset : ((countsOf d.labels).map Prod.fst).toFinset = d.labels.toFinset := by
    ext k
    simp only [List.mem_toFinset]
    exact countsOf_keys_mem _ k
  rw [hset, Finset.sum_neg_distrib]
  ring

theorem entropy_eq_sum_of_subset (o : IterOrder) (d : Dataset) (S : Finset String)
    (hS : d.labels.toFinset ⊆ S) :
    entropy o d = ∑ l in S,
      Real.negMulLog ((d.labels.count l : ℝ) / (d.data.length : ℝ)) / Real.log 2 := by
  rw [entropy_eq_sum]
  apply Finset.sum_subset hS
  intro l _ hl
  have : d.labels.count l = 0 := List.count_eq_zero.mpr (fun h => hl (List.mem_toFinset.mpr h))
  simp [this]

theorem entropy_nonneg (o : IterOrder) (d : Dataset) : 0 ≤ entropy o d := by
  rw [entropy_eq_sum]
  apply Finset.sum_nonneg
  intro l _
  apply div_nonneg _ log_two_pos.le
  apply Real.negMulLog_nonneg
  · positivity
  · by_cases hn : d.data.length = 0
    · simp [hn]
    · rw [div_le_one (by positivity)]
      have : d.labels.count l ≤ d.labels.length := List.count_le_length _ _
      have hl : d.labels.length = d.data.length := by simp [Dataset.labels]
      exact_mod_cast hl ▸ this

theorem informationGain_eq (o : IterOrder) (d : Dataset) (a : Int) :
    informationGain o d a = entropy o d - ∑ v in (d.getUniqueValues a).toFinset,
      (((d.filter a v).data.length : ℝ) / (d.data.length : ℝ)) * entropy o (d.filter a v) := by
  unfold informationGain
  rw [foldl_sub_eq (fun v => (((d.filter a v).data.length : ℝ) / (d.data.length : ℝ))
      * entropy o (d.filter a v)), List.sum_toFinset _ (getUniqueValues_nodup d a)]

/-! ## The information gain is never negative -/

theorem filter_length_eq_count (d : Dataset) (a : Int) (v : String) :
    (d.filter a v).data.length = (d.column a).count v := by
  unfold Dataset.filter Dataset.column
  simp only
  induction d.data with
  | nil => simp
  | cons r rs ih =>
    by_cases h : at_ r a = v
    · simp [List.filter_cons, h, ih]
    · simp [List.filter_cons, h, ih, List.count_cons]

theorem filter_labels_count (d : Dataset) (a : Int) (v l : String) :
    (d.filter a v).labels.count l
      = ((d.data.filter (fun r => at_ r d.labelIndex = l)).map (fun r => at_ r a)).count v := by
  unfold Dataset.filter Dataset.labels
  simp only
  induction d.data with
  | nil => simp
  | cons r rs ih =>
    by_cases h : at_ r a = v <;> by_cases h' : at_ r d.labelIndex = l <;>
      simp [List.filter_cons, h, h', ih, List.count_cons]

theorem labels_count_eq (d : Dataset) (l : String) :
    d.labels.count l = (d.data.filter (fun r => at_ r d.labelIndex = l)).length := by
  unfold Dataset.labels
  induction d.data with
  | nil => simp
  | cons r rs ih =>
    by_cases h' : at_ r d.labelIndex = l <;> simp [List.filter_cons, h', ih, List.count_cons]

theorem filter_labels_subset (d : Dataset) (a : Int) (v : String) :
    (d.filter a v).labels.toFinset ⊆ d.labels.toFinset := by
  intro l hl
  simp only [List.mem_toFinset, Dataset.labels, List.mem_map] at hl ⊢
  obtain ⟨r, hr, e⟩ := hl
  exact ⟨r, ((mem_filter_data d a v r).mp hr).1, e⟩

theorem getUniqueValues_toFinset (d : Dataset) (a : Int) :
    (d.getUniqueValues a).toFinset = (d.column a).toFinset := by
  ext v
  rw [List.mem_toFinset, List.mem_toFinset, getUniqueValues_eq, valuesOf_mem]

theorem sum_filter_length (d : Dataset) (a : Int) :
    ∑ v in (d.getUniqueValues a).toFinset, (d.filter a v).data.length = d.data.length := by
  rw [getUniqueValues_toFinset]
  simp only [filter_length_eq_count]
  rw [List.sum_toFinset_count_eq_length]
  simp [Dataset.column]

theorem sum_filter_labels_count (d : Dataset) (a : Int) (l : String) :
    ∑ v in (d.getUniqueValues a).toFinset, (d.filter a v).labels.count l = d.labels.count l := by
  rw [getUniqueValues_toFinset]
  simp only [filter_labels_count]
  rw [labels_count_eq, ← List.length_map (d.data.filter (fun r => at_ r d.labelIndex = l))
    (fun r => at_ r a), ← List.sum_toFinset_count_eq_length]
  symm
  apply Finset.sum_subset
  · intro v hv
    simp only [List.mem_toFinset, List.mem_map, List.mem_filter, Dataset.column] at hv ⊢
    obtain ⟨r, ⟨hr, _⟩, e⟩ := hv
    exact ⟨r, hr, e⟩
  · intro v _ hv
    exact List.count_eq_zero.mpr (fun h => hv (List.mem_toFinset.mpr h))

theorem filter_length_pos (d : Dataset) (a : Int) (v : String)
    (hv : v ∈ (d.getUniqueValues a).toFinset) : 0 < (d.filter a v).data.length :=
  List.length_pos.mpr (filter_nonempty d a v (List.mem_toFinset.mp hv))

/-- Jensen's inequality for one label: the weighted entropy terms of the subsets are at most
the entropy term of the whole. -/
theorem jensen_label (d : Dataset) (a : Int) (l : String) (hn : d.data ≠ []) :
    ∑ v in (d.getUniqueValues a).toFinset,
        (((d.filter a v).data.length : ℝ) / (d.data.length : ℝ))
          * Real.negMulLog (((d.filter a v).labels.count l : ℝ) / ((d.filter a v).data.length : ℝ))
      ≤ Real.negMulLog ((d.labels.count l : ℝ) / (d.data.length : ℝ)) := by
  have hN : (0 : ℝ) < (d.data.length : ℝ) := by
    exact_mod_cast List.length_pos.mpr hn
  have hw : ∑ v in (d.getUniqueValues a).toFinset,
      (((d.filter a v).data.length : ℝ) / (d.data.length : ℝ)) = 1 := by
    rw [← Finset.sum_div, ← Nat.cast_sum, sum_filter_length]
    exact div_self hN.ne.symm
  have hp : ∑ v in (d.getUniqueValues a).toFinset,
      (((d.filter a v).data.length : ℝ) / (d.data.length : ℝ))
        • (((d.filter a v).labels.count l : ℝ) / ((d.filter a v).data.length : ℝ))
      = (d.labels.count l : ℝ) / (d.data.length : ℝ) := by
    rw [← sum_filter_labels_count d a l, Nat.cast_sum, Finset.sum_div]
    apply Finset.sum_congr rfl
    intro v hv
    have hv0 : (0 : ℝ) < ((d.filter a v).data.length : ℝ) := by
      exact_mod_cast filter_length_pos d a v hv
    rw [smul_eq_mul]
    field_simp
    ring
  have key := ConcaveOn.le_map_sum Real.concaveOn_negMulLog
    (t := (d.getUniqueValues a).toFinset)
    (w := fun v => ((d.filter a v).data.length : ℝ) / (d.data.length : ℝ))
    (p := fun v => ((d.filter a v).labels.count l : ℝ) / ((d.filter a v).data.length : ℝ))
    (fun v _ => by positivity) hw (fun v _ => by
      simp only [Set.mem_Ici]
      positivity)
  rw [hp] at key
  simpa [smul_eq_mul] using key

theorem weighted_entropy_le (o : IterOrder) (d : Dataset) (a : Int) (hn : d.data ≠ []) :
    ∑ v in (d.getUniqueValues a).toFinset,
        (((d.filter a v).data.length : ℝ) / (d.data.length : ℝ)) * entropy o (d.filter a v)
      ≤ entropy o d := by
  have h1 : ∀ v, entropy o (d.filter a v) = ∑ l in d.labels.toFinset,
      Real.negMulLog (((d.filter a v).labels.count l : ℝ) / ((d.filter a v).data.length : ℝ))
        / Real.log 2 :=
    fun v => entropy_eq_sum_of_subset o (d.filter a v) _ (filter_labels_subset d a v)
  simp only [h1, Finset.mul_sum]
  rw [Finset.sum_comm, entropy_eq_sum]
  apply Finset.sum_le_sum
  intro l _
  have := jensen_label d a l hn
  simp only [← mul_div_assoc, ← Finset.sum_div]
  exact div_le_div_of_nonneg_right this log_two_pos.le

theorem entropy_empty (o : IterOrder) (d : Dataset) (h : d.data = []) : entropy o d = 0 := by
  rw [entropy_eq_sum]
  simp [Dataset.labels, h]

theorem informationGain_nonneg (o : IterOrder) (d : Dataset) (a : Int) :
    0 ≤ informationGain o d a := by
  rw [informationGain_eq]
  by_cases hn : d.data = []
  · rw [entropy_empty o d hn, getUniqueValues_nil d a hn]
    simp
  · linarith [weighted_entropy_le o d a hn]

/-! ## The attribute selector -/

theorem bestAttributeLoop_spec (o : IterOrder) (d : Dataset) (cands : List Int) (st : ℝ × Int) :
    (bestAttributeLoop o d cands st = st ∧ ∀ b ∈ cands, informationGain o d b ≤ st.1)
    ∨ ∃ pre post, cands = pre ++ (bestAttributeLoop o d cands st).2 :: post
        ∧ (bestAttributeLoop o d cands st).1
            = informationGain o d (bestAttributeLoop o d cands st).2
        ∧ st.1 < (bestAttributeLoop o d cands st).1
        ∧ (∀ b ∈ pre, informationGain o d b < (bestAttributeLoop o d cands st).1)
        ∧ ∀ b ∈ post, informationGain o d b ≤ (bestAttributeLoop o d cands st).1 := by
  induction cands generalizing st with
  | nil => left; exact ⟨rfl, by simp⟩
  | cons a rest ih =>
    unfold bestAttributeLoop
    split
    · rename_i hgt
      rcases ih (informationGain o d a, a) with ⟨heq, hall⟩ | ⟨pre, post, hdec, hg, hlt, hpre, hpost⟩
      · right
        refine ⟨[], rest, ?_, ?_, ?_, ?_, ?_⟩
        · rw [heq]; rfl
        · rw [heq]
        · rw [heq]; exact hgt
        · simp
        · rw [heq]; exact hall
      · right
        refine ⟨a :: pre, post, ?_, hg, lt_trans hgt hlt, ?_, hpost⟩
        · rw [List.cons_append, ← hdec]
        · intro b hb
          rcases List.mem_cons.mp hb with hb | hb
          · rw [hb]; exact hlt
          · exact hpre b hb
    · rename_i hngt
      have hle : informationGain o d a ≤ st.1 := not_lt.mp hngt
      rcases ih st with ⟨heq, hall⟩ | ⟨pre, post, hdec, hg, hlt, hpre, hpost⟩
      · left
        refine ⟨heq, ?_⟩
        intro b hb
        rcases List.mem_cons.mp hb with hb | hb
        · rw [hb]; exact hle
        · exact hall b hb
      · right
        refine ⟨a :: pre, post, ?_, hg, hlt, ?_, hpost⟩
        · rw [List.cons_append, ← hdec]
        · intro b hb
          rcases List.mem_cons.mp hb with hb | hb
          · rw [hb]; exact lt_of_le_of_lt hle hlt
          · exact hpre b hb

theorem bestAttribute_nil (o : IterOrder) (d : Dataset) : bestAttribute o d [] = -1 := rfl

/-- On a non-empty candidate sequence the selector splits it around its result: strictly
smaller gains before, no larger gain after. -/
theorem bestAttribute_split (o : IterOrder) (d : Dataset) (cands : List Int) (hne : cands ≠ []) :
    ∃ pre post, cands = pre ++ bestAttribute o d cands :: post
      ∧ (∀ b ∈ pre, informationGain o d b < informationGain o d (bestAttribute o d cands))
      ∧ ∀ b ∈ post, informationGain o d b ≤ informationGain o d (bestAttribute o d cands) := by
  rcases bestAttributeLoop_spec o d cands (-1, -1) with
    ⟨_, hall⟩ | ⟨pre, post, hdec, hg, _, hpre, hpost⟩
  · obtain ⟨b, hb⟩ := List.exists_mem_of_ne_nil _ hne
    have h1 := hall b hb
    have h2 := informationGain_nonneg o d b
    simp only at h1
    linarith
  · unfold bestAttribute
    rw [hg] at hpre hpost
    exact ⟨pre, post, hdec, hpre, hpost⟩

theorem bestAttribute_mem (o : IterOrder) (d : Dataset) (cands : List Int)
    (hne : cands ≠ []) : bestAttribute o d cands ∈ cands := by
  obtain ⟨pre, post, hdec, _, _⟩ := bestAttribute_split o d cands hne
  rw [List.mem_iff_append]
  exact ⟨pre, post, hdec⟩

theorem bestAttribute_ne_sentinel (o : IterOrder) (d : Dataset) (cands : List Int)
    (hne : cands ≠ []) (hvalid : ∀ a ∈ cands, 0 ≤ a) : bestAttribute o d cands ≠ -1 := by
  intro h
  have := hvalid _ (bestAttribute_mem o d cands hne)
  rw [h] at this
  omega

/-! ## The rules of `buildTree` and the steps of `classify` -/

theorem buildTree_pure (o : IterOrder) (d : Dataset) (cands : List Int)
    (h : (d.getClassCounts o).length = 1) :
    buildTree o d cands = TreeNode.leaf ((d.getClassCounts o).headD ("", 0)).1 := by
  rw [buildTree, if_pos h]

theorem buildTree_nil (o : IterOrder) (d : Dataset)
    (h : (d.getClassCounts o).length ≠ 1) :
    buildTree o d [] = TreeNode.leaf (mostCommonLabel (d.getClassCounts o)) := by
  rw [buildTree, if_neg h]
  simp

theorem buildTree_sentinel (o : IterOrder) (d : Dataset) (cands : List Int)
    (h : (d.getClassCounts o).length ≠ 1) (hs : bestAttribute o d cands = -1) :
    buildTree o d cands = TreeNode.leaf (mostCommonLabel (d.getClassCounts o)) := by
  rw [buildTree, if_neg h]
  split <;> rfl

theorem buildTree_split (o : IterOrder) (d : Dataset) (cands : List Int)
    (h : (d.getClassCounts o).length ≠ 1) (hc : cands ≠ [])
    (hs : bestAttribute o d cands ≠ -1) :
    buildTree o d cands
      = TreeNode.node (at_ d.attributes (bestAttribute o d cands))
          ((d.getUniqueValues (bestAttribute o d cands)).map (fun value =>
            (value, buildTree o (d.filter (bestAttribute o d cands) value)
              (cands.erase (bestAttribute o d cands))))) := by
  rw [buildTree, if_neg h, dif_neg hs]
  have : cands.isEmpty = false := by
    cases cands with
    | nil => exact absurd rfl hc
    | cons a rest => rfl
  simp [this]

theorem classify_leaf (l : String) (inst attributes : List String) :
    classify (TreeNode.leaf l) inst attributes = l := by
  simp [TreeNode.leaf, classify]

theorem classify_no_children (a l : String) (inst attributes : List String) :
    classify (TreeNode.mk a [] l) inst attributes = l := by
  simp [classify]

theorem classifyAt_map (values : List String) (f : String → TreeNode) (x : String)
    (inst attributes : List String) :
    classifyAt (values.map (fun v => (v, f v))) x inst attributes
      = if x ∈ values then classify (f x) inst attributes else "Unknown" := by
  induction values with
  | nil => simp [classifyAt]
  | cons v vs ih =>
    simp only [List.map_cons, classifyAt, ih, List.mem_cons]
    by_cases h : v = x
    · simp [h]
    · have h' : ¬ x = v := fun e => h e.symm
      simp [h, h']

theorem classify_node (a : String) (values : List String) (f : String → TreeNode)
    (inst attributes : List String) (hv : values ≠ []) :
    classify (TreeNode.node a (values.map (fun v => (v, f v)))) inst attributes
      = if inst.getD (attributes.indexOf a) "" ∈ values
        then classify (f (inst.getD (attributes.indexOf a) "")) inst attributes
        else "Unknown" := by
  have : (values.map (fun v => (v, f v))).isEmpty = false := by
    cases values with
    | nil => exact absurd rfl hv
    | cons v vs => rfl
  simp only [TreeNode.node, classify, this]
  exact classifyAt_map values f _ inst attributes

theorem missingChildAt_map (values : List String) (f : String → TreeNode) (x : String)
    (inst attributes : List String) :
    missingChildAt (values.map (fun v => (v, f v))) x inst attributes
      = if x ∈ values then missingChild (f x) inst attributes else true := by
  induction values with
  | nil => simp [missingChildAt]
  | cons v vs ih =>
    simp only [List.map_cons, missingChildAt, ih, List.mem_cons]
    by_cases h : v = x
    · simp [h]
    · have h' : ¬ x = v := fun e => h e.symm
      simp [h, h']

theorem missingChild_node (a : String) (values : List String) (f : String → TreeNode)
    (inst attributes : List String) (hv : values ≠ []) :
    missingChild (TreeNode.node a (values.map (fun v => (v, f v)))) inst attributes
      = if inst.getD (attributes.indexOf a) "" ∈ values
        then missingChild (f (inst.getD (attributes.indexOf a) "")) inst attributes
        else true := by
  have : (values.map (fun v => (v, f v))).isEmpty = false := by
    cases values with
    | nil => exact absurd rfl hv
    | cons v vs => rfl
  simp only [TreeNode.node, missingChild, this]
  exact missingChildAt_map values f _ inst attributes

theorem buildTree_induct (o : IterOrder) (P : Dataset → List Int → Prop)
    (step : ∀ d c,
      ((d.getClassCounts o).length ≠ 1 → c ≠ [] → bestAttribute o d c ≠ -1 →
        ∀ v, P (d.filter (bestAttribute o d c) v) (c.erase (bestAttribute o d c))) → P d c) :
    ∀ d c, P d c := by
  have main : ∀ n, ∀ d c, c.length = n → P d c := by
    intro n
    induction n with
    | zero =>
      intro d c hc
      apply step
      intro _ hne
      exact absurd (List.length_eq_zero.mp hc) hne
    | succ n ih =>
      intro d c hc
      apply step
      intro _ _ hs v
      apply ih
      rw [List.length_erase_of_mem (bestAttribute_mem o d c (by assumption)), hc]
      rfl
  intro d c
  exact main c.length d c rfl

/-- The four ways `buildTree` returns, as a case distinction. -/
theorem buildTree_cases (o : IterOrder) (d : Dataset) (c : List Int) :
    ((d.getClassCounts o).length = 1
      ∧ buildTree o d c = TreeNode.leaf ((d.getClassCounts o).headD ("", 0)).1)
    ∨ ((d.getClassCounts o).length ≠ 1 ∧ (c = [] ∨ bestAttribute o d c = -1)
      ∧ buildTree o d c = TreeNode.leaf (mostCommonLabel (d.getClassCounts o)))
    ∨ ((d.getClassCounts o).length ≠ 1 ∧ c ≠ [] ∧ bestAttribute o d c ≠ -1
      ∧ buildTree o d c
        = TreeNode.node (at_ d.attributes (bestAttribute o d c))
            ((d.getUniqueValues (bestAttribute o d c)).map (fun value =>
              (value, buildTree o (d.filter (bestAttribute o d c) value)
                (c.erase (bestAttribute o d c)))))) := by
  by_cases h : (d.getClassCounts o).length = 1
  · exact Or.inl ⟨h, buildTree_pure o d c h⟩
  · by_cases hc : c = []
    · right; left
      refine ⟨h, Or.inl hc, ?_⟩
      rw [hc]
      exact buildTree_nil o d h
    · by_cases hs : bestAttribute o d c = -1
      · right; left
        exact ⟨h, Or.inr hs, buildTree_sentinel o d c h hs⟩
      · right; right
        exact ⟨h, hc, hs, buildTree_split o d c h hc hs⟩

/-! ## The majority label -/

theorem mostCommonLoop_spec (l : List (String × Nat)) (st : String × Nat) :
    (l.foldl (fun (st : String × Nat) lc => if lc.2 > st.2 then (lc.1, lc.2) else st) st = st
        ∧ ∀ x ∈ l, x.2 ≤ st.2)
    ∨ ∃ pre post,
        l = pre ++ (l.foldl (fun (st : String × Nat) lc =>
              if lc.2 > st.2 then (lc.1, lc.2) else st) st) :: post
        ∧ st.2 < (l.foldl (fun (st : String × Nat) lc =>
              if lc.2 > st.2 then (lc.1, lc.2) else st) st).2
        ∧ (∀ x ∈ pre, x.2 < (l.foldl (fun (st : String × Nat) lc =>
              if lc.2 > st.2 then (lc.1, lc.2) else st) st).2)
        ∧ ∀ x ∈ post, x.2 ≤ (l.foldl (fun (st : String × Nat) lc =>
              if lc.2 > st.2 then (lc.1, lc.2) else st) st).2 := by
  induction l generalizing st with
  | nil => left; exact ⟨rfl, by simp⟩
  | cons y ys ih =>
    rw [List.foldl_cons]
    by_cases hgt : y.2 > st.2
    · rw [if_pos hgt]
      rcases ih (y.1, y.2) with ⟨heq, hall⟩ | ⟨pre, post, hdec, hlt, hpre, hpost⟩
      · right
        refine ⟨[], ys, ?_, ?_, ?_, ?_⟩
        · rw [heq]; rfl
        · rw [heq]; exact hgt
        · simp
        · rw [heq]; exact hall
      · right
        refine ⟨y :: pre, post, ?_, lt_trans hgt hlt, ?_, hpost⟩
        · rw [List.cons_append, ← hdec]
        · intro x hx
          rcases List.mem_cons.mp hx with hx | hx
          · rw [hx]; exact hlt
          · exact hpre x hx
    · rw [if_neg hgt]
      have hle : y.2 ≤ st.2 := not_lt.mp hgt
      rcases ih st with ⟨heq, hall⟩ | ⟨pre, post, hdec, hlt, hpre, hpost⟩
      · left
        refine ⟨heq, ?_⟩
        intro x hx
        rcases List.mem_cons.mp hx with hx | hx
        · rw [hx]; exact hle
        · exact hall x hx
      · right
        refine ⟨y :: pre, post, ?_, hlt, ?_, hpost⟩
        · rw [List.cons_append, ← hdec]
        · intro x hx
          rcases List.mem_cons.mp hx with hx | hx
          · rw [hx]; exact lt_of_le_of_lt hle hlt
          · exact hpre x hx

/-- On a non-empty count map with positive counts the majority loop selects the first
entry that attains the largest count. -/
theorem mostCommonLabel_spec (counts : List (String × Nat)) (hne : counts ≠ [])
    (hpos : ∀ x ∈ counts, 0 < x.2) :
    ∃ n pre post, counts = pre ++ (mostCommonLabel counts, n) :: post
      ∧ (∀ x ∈ pre, x.2 < n) ∧ ∀ x ∈ post, x.2 ≤ n := by
  rcases mostCommonLoop_spec counts ("", 0) with ⟨_, hall⟩ | ⟨pre, post, hdec, _, hpre, hpost⟩
  · obtain ⟨x, hx⟩ := List.exists_mem_of_ne_nil _ hne
    have h1 := hall x hx
    have h2 := hpos x hx
    simp only at h1
    omega
  · exact ⟨_, pre, post, hdec, hpre, hpost⟩

theorem mostCommonLabel_nil : mostCommonLabel [] = "" := rfl

/-! ## The recursive calls -/

theorem called_cands (o : IterOrder) (d : Dataset) (c : List Int) (d' : Dataset) (c' : List Int)
    (h : Called o d c d' c') : ∀ a ∈ c', a ∈ c := by
  induction h with
  | here d c => exact fun a ha => ha
  | down d c v d' c' _ _ _ _ _ ih => exact fun a ha => List.mem_of_mem_erase (ih a ha)

theorem called_rows (o : IterOrder) (d : Dataset) (c : List Int) (d' : Dataset) (c' : List Int)
    (h : Called o d c d' c') : ∀ row ∈ d'.data, row ∈ d.data := by
  induction h with
  | here d c => exact fun row hr => hr
  | down d c v d' c' _ _ _ _ _ ih =>
    exact fun row hr => ((mem_filter_data _ _ _ row).mp (ih row hr)).1

theorem called_nonempty (o : IterOrder) (d : Dataset) (c : List Int) (d' : Dataset)
    (c' : List Int) (h : Called o d c d' c') (hne : d.data ≠ []) : d'.data ≠ [] := by
  induction h with
  | here d c => exact hne
  | down d c v d' c' _ _ _ hv _ ih => exact ih (filter_nonempty d _ v hv)

theorem called_layout (o : IterOrder) (d : Dataset) (c : List Int) (d' : Dataset)
    (c' : List Int) (h : Called o d c d' c') :
    d'.attributes = d.attributes ∧ d'.labelIndex = d.labelIndex := by
  induction h with
  | here d c => exact ⟨rfl, rfl⟩
  | down d c v d' c' _ _ _ _ _ ih => exact ih

theorem called_length (o : IterOrder) (d : Dataset) (c : List Int) (d' : Dataset)
    (c' : List Int) (h : Called o d c d' c') : c'.length ≤ c.length := by
  induction h with
  | here d c => exact le_refl _
  | down d c v d' c' _ _ _ _ _ ih => exact le_trans ih (List.length_erase_le _ _)

theorem path_called (o : IterOrder) (attributes inst : List String) (d : Dataset) (c : List Int)
    (d' : Dataset) (c' : List Int) (h : Path o attributes inst d c d' c') :
    Called o d c d' c' := by
  induction h with
  | here d c => exact Called.here d c
  | down d c d' c' h1 h2 h3 h4 _ ih => exact Called.down d c _ d' c' h1 h2 h3 h4 ih

theorem mem_subtreesOf_map (values : List String) (f : String → TreeNode) (t : TreeNode) :
    t ∈ subtreesOf (values.map (fun v => (v, f v))) ↔ ∃ v ∈ values, t ∈ (f v).subtrees := by
  induction values with
  | nil => simp [subtreesOf]
  | cons v vs ih => simp [subtreesOf, ih]

theorem subtrees_self (t : TreeNode) : t ∈ t.subtrees := by
  cases t with
  | mk a cs l => simp [TreeNode.subtrees]

theorem subtrees_leaf (l : String) : (TreeNode.leaf l).subtrees = [TreeNode.leaf l] := by
  simp [TreeNode.leaf, TreeNode.subtrees, subtreesOf]

theorem subtrees_node (a : String) (cs : List (String × TreeNode)) :
    (TreeNode.node a cs).subtrees = TreeNode.node a cs :: subtreesOf cs := by
  simp [TreeNode.node, TreeNode.subtrees]

/-- Every node of the built tree is the result of one of the recursive calls. -/
theorem subtrees_called (o : IterOrder) (d : Dataset) (c : List Int) :
    ∀ t ∈ (buildTree o d c).subtrees, ∃ d' c', Called o d c d' c' ∧ t = buildTree o d' c' := by
  revert d c
  apply buildTree_induct o
  intro d c ih t ht
  rcases buildTree_cases o d c with ⟨_, he⟩ | ⟨_, _, he⟩ | ⟨h1, h2, h3, he⟩
  · rw [he, subtrees_leaf, List.mem_singleton] at ht
    exact ⟨d, c, Called.here d c, by rw [ht, he]⟩
  · rw [he, subtrees_leaf, List.mem_singleton] at ht
    exact ⟨d, c, Called.here d c, by rw [ht, he]⟩
  · rw [he, subtrees_node, List.mem_cons] at ht
    rcases ht with ht | ht
    · exact ⟨d, c, Called.here d c, by rw [ht, he]⟩
    · obtain ⟨v, hv, htv⟩ := (mem_subtreesOf_map _ _ t).mp ht
      obtain ⟨d', c', hcall, heq⟩ := ih h1 h2 h3 v t htv
      exact ⟨d', c', Called.down d c v d' c' h1 h2 h3 hv hcall, heq⟩

/-- Every recursive call contributes its result as a node of the built tree. -/
theorem called_subtrees (o : IterOrder) (d : Dataset) (c : List Int) (d' : Dataset)
    (c' : List Int) (h : Called o d c d' c') :
    buildTree o d' c' ∈ (buildTree o d c).subtrees := by
  induction h with
  | here d c => exact subtrees_self _
  | down d c v d' c' h1 h2 h3 hv _ ih =>
    rw [buildTree_split o d c h1 h2 h3, subtrees_node]
    exact List.mem_cons_of_mem _ ((mem_subtreesOf_map _ _ _).mpr ⟨v, hv, ih⟩)

theorem children_leaf (l : String) : (TreeNode.leaf l).children = [] := rfl

theorem label_leaf (l : String) : (TreeNode.leaf l).label = l := rfl

theorem children_node (a : String) (cs : List (String × TreeNode)) :
    (TreeNode.node a cs).children = cs := rfl

theorem label_node (a : String) (cs : List (String × TreeNode)) :
    (TreeNode.node a cs).label = "" := rfl

theorem attr_node (a : String) (cs : List (String × TreeNode)) :
    (TreeNode.node a cs).attr = a := rfl

theorem headD_mem (counts : List (String × Nat)) (h : counts.length = 1) :
    counts = [counts.headD ("", 0)] := by
  match counts, h with
  | [x], _ => rfl

/-- A node without children returned for a non-empty dataset carries a label of that
dataset. -/
theorem leaf_label_mem (o : IterOrder) (d : Dataset) (c : List Int) (hne : d.data ≠ [])
    (hleaf : (buildTree o d c).children = []) :
    ∃ row ∈ d.data, at_ row d.labelIndex = (buildTree o d c).label := by
  rcases buildTree_cases o d c with ⟨h1, he⟩ | ⟨_, _, he⟩ | ⟨_, _, _, he⟩
  · rw [he, label_leaf]
    apply getClassCounts_label_mem o d
    have := headD_mem _ h1
    rw [this]
    simp
  · rw [he, label_leaf]
    obtain ⟨n, pre, post, hdec, _, _⟩ := mostCommonLabel_spec (d.getClassCounts o)
      (getClassCounts_ne_nil o d hne) (getClassCounts_pos o d)
    apply getClassCounts_label_mem o d (mostCommonLabel (d.getClassCounts o), n)
    generalize mostCommonLabel (d.getClassCounts o) = m at hdec ⊢
    rw [hdec]
    simp
  · rw [he, children_node] at hleaf
    exact absurd (List.map_eq_nil_iff.mp hleaf) (getUniqueValues_ne_nil d _ hne)

/-- A node without children returned for an empty dataset carries the empty label. -/
theorem leaf_label_empty (o : IterOrder) (d : Dataset) (c : List Int) (he : d.data = []) :
    (buildTree o d c).label = "" := by
  have hcounts : d.getClassCounts o = [] := by
    have := getClassCounts_perm o d
    simp only [Dataset.labels, he, List.map_nil, countsOf, List.foldl_nil] at this
    exact List.Perm.eq_nil this
  rcases buildTree_cases o d c with ⟨h1, _⟩ | ⟨_, _, he'⟩ | ⟨_, _, _, he'⟩
  · rw [hcounts] at h1
    exact absurd h1 (by simp)
  · rw [he', label_leaf, hcounts]
    rfl
  · rw [he', label_node]

theorem depth_leaf (l : String) : (TreeNode.leaf l).depth = 0 := by
  simp [TreeNode.leaf, TreeNode.depth]

theorem depth_node_le (a : String) (cs : List (String × TreeNode)) :
    (TreeNode.node a cs).depth ≤ 1 + depthMax cs := by
  simp only [TreeNode.node, TreeNode.depth]
  split <;> omega

theorem depthMax_map_le (values : List String) (f : String → TreeNode) (n : Nat)
    (h : ∀ v, (f v).depth ≤ n) : depthMax (values.map (fun v => (v, f v))) ≤ n := by
  induction values with
  | nil => simp [depthMax]
  | cons v vs ih =>
    simp only [List.map_cons, depthMax]
    exact max_le (h v) ih

theorem lookup_map (values : List String) (f : String → TreeNode) (v : String)
    (hv : v ∈ values) : (values.map (fun v => (v, f v))).lookup v = some (f v) := by
  induction values with
  | nil => exact absurd hv (List.not_mem_nil v)
  | cons x xs ih =>
    by_cases e : v = x
    · subst e
      simp [List.lookup]
    · have hx : v ∈ xs := by
        rcases List.mem_cons.mp hv with h | h
        · exact absurd h e
        · exact h
      have e' : (v == x) = false := by simpa using e
      simp only [List.map_cons, List.lookup, e']
      exact ih hx

theorem splitRule_of_split (o : IterOrder) (d : Dataset) (c : List Int)
    (h1 : (d.getClassCounts o).length ≠ 1) (h2 : c ≠ []) (h3 : bestAttribute o d c ≠ -1)
    (hne : d.data ≠ []) : SplitRule o d c (buildTree o d c) := by
  rw [buildTree_split o d c h1 h2 h3]
  refine ⟨rfl, ?_, ?_, ?_⟩
  · rw [children_node, List.map_map]
    exact List.map_id _
  · rw [children_node]
    intro h
    exact getUniqueValues_ne_nil d _ hne (List.map_eq_nil_iff.mp h)
  · intro v hv
    rw [children_node]
    exact lookup_map _ _ v hv

theorem length_ne_one_of_two_le (counts : List (String × Nat)) (h : 2 ≤ counts.length) :
    counts.length ≠ 1 := by omega

theorem data_ne_nil_of_children (o : IterOrder) (d : Dataset) (c : List Int)
    (h : (buildTree o d c).children ≠ []) :
    ((d.getClassCounts o).length ≠ 1 ∧ c ≠ [] ∧ bestAttribute o d c ≠ -1) ∧ d.data ≠ [] := by
  rcases buildTree_cases o d c with ⟨_, he⟩ | ⟨_, _, he⟩ | ⟨h1, h2, h3, he⟩
  · rw [he] at h; exact absurd (children_leaf _) h
  · rw [he] at h; exact absurd (children_leaf _) h
  · refine ⟨⟨h1, h2, h3⟩, ?_⟩
    intro hnil
    apply h
    rw [he, children_node, getUniqueValues_nil d _ hnil]
    rfl

/-! ## The claims -/

theorem erase_best_length (o : IterOrder) (d : Dataset) (cands : List Int) :
    cands = [] ∨ (cands.erase (bestAttribute o d cands)).length + 1 = cands.length := by
  by_cases hc : cands = []
  · exact Or.inl hc
  · right
    have hmem := bestAttribute_mem o d cands hc
    have hlen := List.length_erase_of_mem hmem
    have hpos := List.length_pos_of_mem hmem
    omega

theorem depth_le (o : IterOrder) : ∀ d cands, (buildTree o d cands).depth ≤ cands.length := by
  apply buildTree_induct o
  intro d c ih
  rcases buildTree_cases o d c with ⟨_, he⟩ | ⟨_, _, he⟩ | ⟨h1, h2, h3, he⟩
  · rw [he, depth_leaf]; exact Nat.zero_le _
  · rw [he, depth_leaf]; exact Nat.zero_le _
  · rw [he]
    refine le_trans (depth_node_le _ _) ?_
    have hmem := bestAttribute_mem o d c h2
    have hlen := List.length_erase_of_mem hmem
    have hpos := List.length_pos_of_mem hmem
    have hle := depthMax_map_le (d.getUniqueValues (bestAttribute o d c))
      (fun value => buildTree o (d.filter (bestAttribute o d c) value)
        (c.erase (bestAttribute o d c))) _ (fun v => ih h1 h2 h3 v)
    beta_reduce at hle
    rw [hlen] at hle
    omega

/-- C5: `buildTree` is a total function, defined by recursion on the size of the candidate
set (unless the set is empty, the set passed to the recursive calls has exactly one element
less), and the depth of the tree it returns (the number of internal nodes on the longest
path from the root to a leaf) is at most the number of candidate attributes supplied. -/
theorem buildTree_depth_le (o : IterOrder) (d : Dataset) (cands : List Int) :
    (buildTree o d cands).depth ≤ cands.length
    ∧ (cands = [] ∨ (cands.erase (bestAttribute o d cands)).length + 1 = cands.length) :=
  ⟨depth_le o d cands, erase_best_length o d cands⟩

/-- The selector on exact real gains: on a non-empty ascending candidate sequence it takes
a member of maximal gain, the smallest index among those of that gain. The source compares
rounded doubles; its selector is treated in the last section. -/
theorem bestAttribute_argmax_exact (o : IterOrder) (d : Dataset) (cands : List Int)
    (hne : cands ≠ []) (hasc : cands.Pairwise (fun a b => a < b)) :
    bestAttribute o d cands ∈ cands
    ∧ (∀ b ∈ cands, informationGain o d b ≤ informationGain o d (bestAttribute o d cands))
    ∧ ∀ b ∈ cands, informationGain o d b = informationGain o d (bestAttribute o d cands) →
        bestAttribute o d cands ≤ b := by
  obtain ⟨pre, post, hdec, hpre, hpost⟩ := bestAttribute_split o d cands hne
  refine ⟨bestAttribute_mem o d cands hne, ?_, ?_⟩
  · intro b hb
    rw [hdec, List.mem_append, List.mem_cons] at hb
    rcases hb with hb | hb | hb
    · exact (hpre b hb).le
    · rw [hb]
    · exact hpost b hb
  · intro b hb heq
    generalize bestAttribute o d cands = a at hdec hpre hpost heq ⊢
    rw [hdec] at hasc hb
    rw [List.mem_append, List.mem_cons] at hb
    rcases hb with hb | hb | hb
    · exact absurd heq (ne_of_lt (hpre b hb))
    · exact le_of_eq hb.symm
    · have h1 := (List.pairwise_append.mp hasc).2.1
      exact le_of_lt ((List.pairwise_cons.mp h1).1 b hb)

/-- C7: every information gain is greater than the initial best score -1, so on a set of
valid (non-negative) candidate indices `bestAttribute` returns the sentinel -1 exactly when
the set is empty; hence no call of `buildTree` reached from such a set, having a non-empty
candidate set, takes the `bestAttr == -1` branch. -/
theorem bestAttribute_sentinel_iff (o : IterOrder) (d : Dataset) (cands : List Int)
    (hvalid : ∀ a ∈ cands, 0 ≤ a) :
    (∀ d' a, -1 < informationGain o d' a)
    ∧ (bestAttribute o d cands = -1 ↔ cands = [])
    ∧ ∀ d' c', Called o d cands d' c' → c' ≠ [] → bestAttribute o d' c' ≠ -1 := by
  refine ⟨?_, ?_, ?_⟩
  · intro d' a
    linarith [informationGain_nonneg o d' a]
  · constructor
    · intro h
      by_contra hne
      exact bestAttribute_ne_sentinel o d cands hne hvalid h
    · intro h
      rw [h]
      rfl
  · intro d' c' hcall hne
    exact bestAttribute_ne_sentinel o d' c' hne
      (fun a ha => hvalid a (called_cands o d cands d' c' hcall a ha))

theorem bestAttribute_sentinel_iff_witness :
    (∀ d' a, -1 < informationGain IterOrder.insertion d' a)
    ∧ (bestAttribute IterOrder.insertion weather [0, 1, 2, 3] = -1 ↔ [0, 1, 2, 3] = ([] : List Int))
    ∧ ∀ d' c', Called IterOrder.insertion weather [0, 1, 2, 3] d' c' → c' ≠ [] →
        bestAttribute IterOrder.insertion d' c' ≠ -1 :=
  bestAttribute_sentinel_iff IterOrder.insertion weather [0, 1, 2, 3] (by decide)

/-- C8: when the class-count map has exactly one entry, `buildTree` returns, for every
candidate set, a leaf (a node without children) labelled with that single label, which is
the label of every row; no attribute is selected. -/
theorem buildTree_pure_class (o : IterOrder) (d : Dataset) (cands : List Int)
    (h : (d.getClassCounts o).length = 1) :
    ∃ l n, d.getClassCounts o = [(l, n)]
      ∧ (∀ row ∈ d.data, at_ row d.labelIndex = l)
      ∧ buildTree o d cands = TreeNode.leaf l
      ∧ (buildTree o d cands).children = [] := by
  have hd := headD_mem _ h
  have hb := buildTree_pure o d cands h
  refine ⟨((d.getClassCounts o).headD ("", 0)).1, ((d.getClassCounts o).headD ("", 0)).2,
    hd, ?_, hb, ?_⟩
  · intro row hrow
    have h1 : at_ row d.labelIndex ∈ (countsOf d.labels).map Prod.fst :=
      (countsOf_keys_mem _ _).mpr (List.mem_map_of_mem _ hrow)
    obtain ⟨x, hx, hx1⟩ := List.mem_map.mp h1
    have hx' := (mem_getClassCounts o d x).mpr hx
    rw [hd, List.mem_singleton] at hx'
    rw [← hx1, hx']
  · rw [hb]
    rfl

theorem buildTree_pure_class_witness :
    ∃ l n, weatherSunny.getClassCounts IterOrder.insertion = [(l, n)]
      ∧ (∀ row ∈ weatherSunny.data, at_ row weatherSunny.labelIndex = l)
      ∧ buildTree IterOrder.insertion weatherSunny [1, 2, 3] = TreeNode.leaf l
      ∧ (buildTree IterOrder.insertion weatherSunny [1, 2, 3]).children = [] :=
  buildTree_pure_class IterOrder.insertion weatherSunny [1, 2, 3] (by decide)

/-- C9: on a dataset with at least two distinct labels and an empty candidate set,
`buildTree` returns a leaf whose label is a majority label: its number of occurrences in the
label column is at least that of every label, and it is the first entry, in the iteration
order of the class-count map, that attains the largest count. -/
theorem buildTree_no_candidates (o : IterOrder) (d : Dataset)
    (h : 2 ≤ (d.getClassCounts o).length) :
    ∃ l n pre post, d.getClassCounts o = pre ++ (l, n) :: post
      ∧ buildTree o d [] = TreeNode.leaf l
      ∧ n = d.labels.count l
      ∧ (∀ l', d.labels.count l' ≤ d.labels.count l)
      ∧ (∀ x ∈ pre, x.2 < n)
      ∧ ∀ x ∈ post, x.2 ≤ n := by
  have hne : d.getClassCounts o ≠ [] := by
    intro e
    rw [e] at h
    simp at h
  obtain ⟨n, pre, post, hdec, hpre, hpost⟩ := mostCommonLabel_spec (d.getClassCounts o) hne
    (getClassCounts_pos o d)
  have hb := buildTree_nil o d (length_ne_one_of_two_le _ h)
  generalize mostCommonLabel (d.getClassCounts o) = m at hdec hb
  have hm : (m, n) ∈ d.getClassCounts o := by rw [hdec]; simp
  have hn : n = d.labels.count m := countsOf_count _ (m, n) ((mem_getClassCounts o d _).mp hm)
  refine ⟨m, n, pre, post, hdec, hb, hn, ?_, hpre, hpost⟩
  intro l'
  by_cases hl : l' ∈ d.labels
  · have h1 : l' ∈ (countsOf d.labels).map Prod.fst := (countsOf_keys_mem _ _).mpr hl
    obtain ⟨x, hx, hx1⟩ := List.mem_map.mp h1
    have hxc := countsOf_count _ x hx
    have hx' := (mem_getClassCounts o d x).mpr hx
    rw [hdec, List.mem_append, List.mem_cons] at hx'
    rw [← hn, ← hx1, ← hxc]
    rcases hx' with hx' | hx' | hx'
    · exact (hpre x hx').le
    · rw [hx']
    · exact hpost x hx'
  · rw [List.count_eq_zero.mpr hl]
    exact Nat.zero_le _

theorem buildTree_no_candidates_witness :
    ∃ l n pre post, weather.getClassCounts IterOrder.reversed = pre ++ (l, n) :: post
      ∧ buildTree IterOrder.reversed weather [] = TreeNode.leaf l
      ∧ n = weather.labels.count l
      ∧ (∀ l', weather.labels.count l' ≤ weather.labels.count l)
      ∧ (∀ x ∈ pre, x.2 < n)
      ∧ ∀ x ∈ post, x.2 ≤ n :=
  buildTree_no_candidates IterOrder.reversed weather (by decide)

/-- C10: on a non-empty dataset with at least two distinct labels and a non-empty set of
valid candidates, `buildTree` returns an internal node named after the attribute selected
by `bestAttribute`, whose child keys are exactly the unique values of that attribute (so
there is at least one child) and whose child under each key is the tree built from the rows
with that value and the candidates without the selected attribute; and every internal node
of the built tree is the result of a recursive call on a non-empty subset for which the same
holds. -/
theorem buildTree_split_rule (o : IterOrder) (d : Dataset) (cands : List Int)
    (hne : d.data ≠ []) (h2 : 2 ≤ (d.getClassCounts o).length) (hc : cands ≠ [])
    (hvalid : ∀ a ∈ cands, 0 ≤ a) :
    buildTree o d cands
      = TreeNode.node (at_ d.attributes (bestAttribute o d cands))
          ((d.getUniqueValues (bestAttribute o d cands)).map (fun value =>
            (value, buildTree o (d.filter (bestAttribute o d cands) value)
              (cands.erase (bestAttribute o d cands)))))
    ∧ SplitRule o d cands (buildTree o d cands)
    ∧ ∀ t ∈ (buildTree o d cands).subtrees, t.children ≠ [] →
        ∃ d' c', Called o d cands d' c' ∧ t = buildTree o d' c' ∧ d'.data ≠ []
          ∧ SplitRule o d' c' t := by
  have h1 := length_ne_one_of_two_le _ h2
  have h3 := bestAttribute_ne_sentinel o d cands hc hvalid
  refine ⟨buildTree_split o d cands h1 hc h3, splitRule_of_split o d cands h1 hc h3 hne, ?_⟩
  intro t ht hch
  obtain ⟨d', c', hcall, heq⟩ := subtrees_called o d cands t ht
  rw [heq] at hch
  obtain ⟨⟨k1, k2, k3⟩, k4⟩ := data_ne_nil_of_children o d' c' hch
  refine ⟨d', c', hcall, heq, k4, ?_⟩
  rw [heq]
  exact splitRule_of_split o d' c' k1 k2 k3 k4

theorem buildTree_split_rule_witness :
    buildTree IterOrder.insertion weather [0, 1, 2, 3]
      = TreeNode.node (at_ weather.attributes (bestAttribute IterOrder.insertion weather [0, 1, 2, 3]))
          ((weather.getUniqueValues (bestAttribute IterOrder.insertion weather [0, 1, 2, 3])).map
            (fun value =>
              (value, buildTree IterOrder.insertion
                (weather.filter (bestAttribute IterOrder.insertion weather [0, 1, 2, 3]) value)
                ([0, 1, 2, 3].erase (bestAttribute IterOrder.insertion weather [0, 1, 2, 3])))))
    ∧ SplitRule IterOrder.insertion weather [0, 1, 2, 3]
        (buildTree IterOrder.insertion weather [0, 1, 2, 3])
    ∧ ∀ t ∈ (buildTree IterOrder.insertion weather [0, 1, 2, 3]).subtrees, t.children ≠ [] →
        ∃ d' c', Called IterOrder.insertion weather [0, 1, 2, 3] d' c'
          ∧ t = buildTree IterOrder.insertion d' c' ∧ d'.data ≠ []
          ∧ SplitRule IterOrder.insertion d' c' t :=
  buildTree_split_rule IterOrder.insertion weather [0, 1, 2, 3] (by decide) (by decide)
    (by decide) (by decide)

theorem classify_label_mem (o : IterOrder) (inst attributes : List String) :
    ∀ d c, d.data ≠ [] →
      classify (buildTree o d c) inst attributes = "Unknown"
      ∨ ∃ row ∈ d.data, at_ row d.labelIndex = classify (buildTree o d c) inst attributes := by
  apply buildTree_induct o
  intro d c ih hne
  rcases buildTree_cases o d c with ⟨_, he⟩ | ⟨_, _, he⟩ | ⟨h1, h2, h3, he⟩
  · right
    have hl := leaf_label_mem o d c hne (by rw [he]; rfl)
    rw [he, label_leaf] at hl
    rw [he, classify_leaf]
    exact hl
  · right
    have hl := leaf_label_mem o d c hne (by rw [he]; rfl)
    rw [he, label_leaf] at hl
    rw [he, classify_leaf]
    exact hl
  · rw [he, classify_node _ _ _ _ _ (getUniqueValues_ne_nil d _ hne)]
    split
    · rename_i hx
      rcases ih h1 h2 h3 _ (filter_nonempty d _ _ hx) with hu | ⟨row, hrow, hlab⟩
      · exact Or.inl hu
      · exact Or.inr ⟨row, ((mem_filter_data d _ _ row).mp hrow).1, hlab⟩
    · exact Or.inl rfl

/-- C3: for a non-empty dataset, every candidate set and every instance, `classify` on the
built tree returns either "Unknown" or a label that occurs in the label column of some row
of the dataset; and every leaf of the built tree is the result of a recursive call on a
subset of rows in which its label occurs. -/
theorem classify_unknown_or_label (o : IterOrder) (d : Dataset) (cands : List Int)
    (inst : List String) (hne : d.data ≠ []) :
    (classify (buildTree o d cands) inst d.attributes = "Unknown"
      ∨ ∃ row ∈ d.data,
          at_ row d.labelIndex = classify (buildTree o d cands) inst d.attributes)
    ∧ ∀ t ∈ (buildTree o d cands).subtrees, t.children = [] →
        ∃ d' c', Called o d cands d' c' ∧ t = buildTree o d' c'
          ∧ (∀ row ∈ d'.data, row ∈ d.data)
          ∧ ∃ row ∈ d'.data, at_ row d.labelIndex = t.label := by
  refine ⟨classify_label_mem o inst d.attributes d cands hne, ?_⟩
  intro t ht hleaf
  obtain ⟨d', c', hcall, heq⟩ := subtrees_called o d cands t ht
  refine ⟨d', c', hcall, heq, called_rows o d cands d' c' hcall, ?_⟩
  rw [heq] at hleaf
  have := leaf_label_mem o d' c' (called_nonempty o d cands d' c' hcall hne) hleaf
  rw [(called_layout o d cands d' c' hcall).2, ← heq] at this
  exact this

theorem classify_unknown_or_label_witness :
    (classify (buildTree IterOrder.insertion weather [0, 1, 2, 3])
        ["sunny", "cool", "high", "strong"] weather.attributes = "Unknown"
      ∨ ∃ row ∈ weather.data,
          at_ row weather.labelIndex
            = classify (buildTree IterOrder.insertion weather [0, 1, 2, 3])
                ["sunny", "cool", "high", "strong"] weather.attributes)
    ∧ ∀ t ∈ (buildTree IterOrder.insertion weather [0, 1, 2, 3]).subtrees, t.children = [] →
        ∃ d' c', Called IterOrder.insertion weather [0, 1, 2, 3] d' c'
          ∧ t = buildTree IterOrder.insertion d' c'
          ∧ (∀ row ∈ d'.data, row ∈ weather.data)
          ∧ ∃ row ∈ d'.data, at_ row weather.labelIndex = t.label :=
  classify_unknown_or_label IterOrder.insertion weather [0, 1, 2, 3]
    ["sunny", "cool", "high", "strong"] (by decide)

theorem missingChild_leaf (l : String) (inst attributes : List String) :
    missingChild (TreeNode.leaf l) inst attributes = false := by
  simp [TreeNode.leaf, missingChild]

theorem node_nil_classify (a : String) (inst attributes : List String) :
    classify (TreeNode.node a []) inst attributes = "" := by
  simp [TreeNode.node, classify]

theorem node_nil_missingChild (a : String) (inst attributes : List String) :
    missingChild (TreeNode.node a []) inst attributes = false := by
  simp [TreeNode.node, missingChild]

/-- Whenever the traversal meets a missing child, `classify` returns "Unknown". -/
theorem classify_of_missingChild (o : IterOrder) (inst attributes : List String) :
    ∀ d c, missingChild (buildTree o d c) inst attributes = true →
      classify (buildTree o d c) inst attributes = "Unknown" := by
  apply buildTree_induct o
  intro d c ih hm
  rcases buildTree_cases o d c with ⟨_, he⟩ | ⟨_, _, he⟩ | ⟨h1, h2, h3, he⟩
  · rw [he, missingChild_leaf] at hm
    exact absurd hm (by simp)
  · rw [he, missingChild_leaf] at hm
    exact absurd hm (by simp)
  · by_cases hv : d.getUniqueValues (bestAttribute o d c) = []
    · rw [he, hv, List.map_nil, node_nil_missingChild] at hm
      exact absurd hm (by simp)
    · rw [he, missingChild_node _ _ _ _ _ hv] at hm
      rw [he, classify_node _ _ _ _ _ hv]
      split
      · rename_i hx
        rw [if_pos hx] at hm
        exact ih h1 h2 h3 _ hm
      · rfl

theorem missingChild_of_classify (o : IterOrder) (inst attributes : List String) :
    ∀ d c, (∀ row ∈ d.data, at_ row d.labelIndex ≠ "Unknown") →
      classify (buildTree o d c) inst attributes = "Unknown" →
      missingChild (buildTree o d c) inst attributes = true := by
  apply buildTree_induct o
  intro d c ih hlab hcl
  have hleaf : (buildTree o d c).children = [] → (buildTree o d c).label ≠ "Unknown" := by
    intro hch
    by_cases hd : d.data = []
    · rw [leaf_label_empty o d c hd]
      decide
    · obtain ⟨row, hrow, hl⟩ := leaf_label_mem o d c hd hch
      rw [← hl]
      exact hlab row hrow
  rcases buildTree_cases o d c with ⟨_, he⟩ | ⟨_, _, he⟩ | ⟨h1, h2, h3, he⟩
  · rw [he, classify_leaf] at hcl
    rw [he] at hleaf
    exact absurd hcl (hleaf rfl)
  · rw [he, classify_leaf] at hcl
    rw [he] at hleaf
    exact absurd hcl (hleaf rfl)
  · by_cases hv : d.getUniqueValues (bestAttribute o d c) = []
    · rw [he, hv, List.map_nil, node_nil_classify] at hcl
      exact absurd hcl (by decide)
    · rw [he, classify_node _ _ _ _ _ hv] at hcl
      rw [he, missingChild_node _ _ _ _ _ hv]
      split
      · rename_i hx
        rw [if_pos hx] at hcl
        refine ih h1 h2 h3 _ ?_ hcl
        intro row hrow
        exact hlab row ((mem_filter_data d _ _ row).mp hrow).1
      · rfl

/-- C4 (as amended): for the tree built from a dataset in which no row carries the label
"Unknown", and every instance, `classify` returns "Unknown" if and only if the traversal
meets an internal node at which the instance's value for the split attribute is not a key
of the children. -/
theorem classify_unknown_iff (o : IterOrder) (d : Dataset) (cands : List Int)
    (inst attributes : List String)
    (hlab : ∀ row ∈ d.data, at_ row d.labelIndex ≠ "Unknown") :
    classify (buildTree o d cands) inst attributes = "Unknown"
      ↔ missingChild (buildTree o d cands) inst attributes = true :=
  ⟨missingChild_of_classify o inst attributes d cands hlab,
    classify_of_missingChild o inst attributes d cands⟩

theorem classify_unknown_iff_witness :
    classify (buildTree IterOrder.insertion weather [0, 1, 2, 3])
        ["foggy", "cool", "high", "strong"] weather.attributes = "Unknown"
      ↔ missingChild (buildTree IterOrder.insertion weather [0, 1, 2, 3])
          ["foggy", "cool", "high", "strong"] weather.attributes = true :=
  classify_unknown_iff IterOrder.insertion weather [0, 1, 2, 3]
    ["foggy", "cool", "high", "strong"] weather.attributes (by decide)

/-- C4 fails as stated: the tree built from a dataset whose only label is the token
"Unknown" is a single leaf, on which `classify` returns "Unknown" although no child is
missing. -/
theorem unknown_label_collides :
    ¬ (classify (buildTree IterOrder.insertion unknownLabelled [0]) ["a"]
          unknownLabelled.attributes = "Unknown"
        ↔ missingChild (buildTree IterOrder.insertion unknownLabelled [0]) ["a"]
            unknownLabelled.attributes = true) := by
  rw [buildTree_pure IterOrder.insertion unknownLabelled [0] (by decide)]
  decide

/-! ## The weather dataset of `main` -/

theorem getClassCounts_length (o : IterOrder) (d : Dataset) :
    (d.getClassCounts o).length = d.insertedCounts.length :=
  (o.perm _).length_eq

theorem buildTree_pure_label (o : IterOrder) (d : Dataset) (cands : List Int)
    (h : (d.getClassCounts o).length = 1) (row : List String) (hrow : row ∈ d.data) :
    buildTree o d cands = TreeNode.leaf (at_ row d.labelIndex) := by
  have hd := headD_mem _ h
  have h1 : at_ row d.labelIndex ∈ (countsOf d.labels).map Prod.fst :=
    (countsOf_keys_mem _ _).mpr (List.mem_map_of_mem _ hrow)
  obtain ⟨x, hx, hx1⟩ := List.mem_map.mp h1
  have hx' := (mem_getClassCounts o d x).mpr hx
  rw [hd, List.mem_singleton] at hx'
  rw [buildTree_pure o d cands h, ← hx1, hx']

theorem entropy_eq_countsEntropy (o : IterOrder) (d : Dataset) (cs : List Nat) (n : Nat)
    (h1 : d.insertedCounts.map Prod.snd = cs) (h2 : d.data.length = n) :
    entropy o d = countsEntropy cs n := by
  unfold entropy countsEntropy Dataset.getClassCounts
  rw [foldl_sub_eq (fun lc : String × Nat => ((lc.2 : ℝ) / (d.data.length : ℝ))
      * Real.logb 2 ((lc.2 : ℝ) / (d.data.length : ℝ))),
    foldl_sub_eq (fun c : Nat => ((c : ℝ) / (n : ℝ)) * Real.logb 2 ((c : ℝ) / (n : ℝ))),
    List.Perm.sum_eq (List.Perm.map _ (o.perm d.insertedCounts)), ← h1, ← h2, List.map_map]
  rfl

theorem countsEntropy_pos (cs : List Nat) (n : Nat) (hne : cs ≠ [])
    (h : ∀ c ∈ cs, 0 < c ∧ c < n) : 0 < countsEntropy cs n := by
  unfold countsEntropy
  rw [foldl_sub_eq (fun c : Nat => ((c : ℝ) / (n : ℝ)) * Real.logb 2 ((c : ℝ) / (n : ℝ)))]
  have hterm : ∀ c ∈ cs, ((c : ℝ) / (n : ℝ)) * Real.logb 2 ((c : ℝ) / (n : ℝ)) < 0 := by
    intro c hc
    obtain ⟨h0, h1⟩ := h c hc
    have hn : (0 : ℝ) < (n : ℝ) := by exact_mod_cast lt_trans h0 h1
    have hc0 : (0 : ℝ) < (c : ℝ) := by exact_mod_cast h0
    have hp0 : (0 : ℝ) < (c : ℝ) / (n : ℝ) := div_pos hc0 hn
    have hp1 : (c : ℝ) / (n : ℝ) < 1 := by
      rw [div_lt_one hn]
      exact_mod_cast h1
    exact mul_neg_of_pos_of_neg hp0 (Real.logb_neg (by norm_num) hp0 hp1)
  have hsum : ∀ l : List Nat, l ≠ [] → (∀ c ∈ l, c ∈ cs) →
      (l.map (fun c : Nat => ((c : ℝ) / (n : ℝ)) * Real.logb 2 ((c : ℝ) / (n : ℝ)))).sum < 0 := by
    intro l
    induction l with
    | nil => intro hl; exact absurd rfl hl
    | cons c rest ih =>
      intro _ hsub
      rw [List.map_cons, List.sum_cons]
      have hc := hterm c (hsub c (List.mem_cons_self _ _))
      by_cases hr : rest = []
      · rw [hr]
        simpa using hc
      · have := ih hr (fun x hx => hsub x (List.mem_cons_of_mem _ hx))
        linarith
  have := hsum cs hne (fun c hc => hc)
  linarith

theorem entropy_pure (o : IterOrder) (d : Dataset) (h : (d.getClassCounts o).length = 1) :
    entropy o d = 0 := by
  have hd := headD_mem _ h
  have hx : (d.getClassCounts o).headD ("", 0) ∈ d.getClassCounts o := by
    rw [hd]; simp
  generalize (d.getClassCounts o).headD ("", 0) = x at hd hx
  have hcount := countsOf_count _ x ((mem_getClassCounts o d x).mp hx)
  have hall : ∀ l ∈ d.labels, l = x.1 := by
    intro l hl
    have h1 : l ∈ (countsOf d.labels).map Prod.fst := (countsOf_keys_mem _ _).mpr hl
    obtain ⟨y, hy, hy1⟩ := List.mem_map.mp h1
    have hy' := (mem_getClassCounts o d y).mpr hy
    rw [hd, List.mem_singleton] at hy'
    rw [← hy1, hy']
  have hlen : d.labels.count x.1 = d.data.length := by
    rw [List.count_eq_length.mpr (fun l hl => (hall l hl).symm)]
    simp [Dataset.labels]
  have hpos : 0 < x.2 := getClassCounts_pos o d x hx
  unfold entropy
  rw [hd, List.foldl_cons, List.foldl_nil, hcount, hlen]
  have hN : (d.data.length : ℝ) ≠ 0 := by
    rw [← hlen, ← hcount]
    exact_mod_cast hpos.ne.symm
  rw [div_self hN]
  simp

theorem weather_gain0 (o : IterOrder) :
    informationGain o weather 0 = entropy o weather - 3 / 8 * countsEntropy [2, 1] 3 := by
  unfold informationGain
  rw [show weather.getUniqueValues 0 = ["overcast", "rain", "sunny"] from by decide]
  simp only [List.foldl_cons, List.foldl_nil]
  rw [entropy_pure o (weather.filter 0 "overcast") (by rw [getClassCounts_length]; decide),
    entropy_pure o (weather.filter 0 "sunny") (by rw [getClassCounts_length]; decide),
    entropy_eq_countsEntropy o (weather.filter 0 "rain") [2, 1] 3 (by decide) (by decide),
    show (weather.filter 0 "rain").data.length = 3 from by decide,
    show weather.data.length = 8 from by decide]
  norm_num

theorem weather_gain1 (o : IterOrder) :
    informationGain o weather 1 = entropy o weather - 3 / 8 * countsEntropy [2, 1] 3
      - 3 / 8 * countsEntropy [2, 1] 3 - 2 / 8 * countsEntropy [1, 1] 2 := by
  unfold informationGain
  rw [show weather.getUniqueValues 1 = ["cool", "hot", "mild"] from by decide]
  simp only [List.foldl_cons, List.foldl_nil]
  rw [entropy_eq_countsEntropy o (weather.filter 1 "cool") [2, 1] 3 (by decide) (by decide),
    entropy_eq_countsEntropy o (weather.filter 1 "hot") [2, 1] 3 (by decide) (by decide),
    entropy_eq_countsEntropy o (weather.filter 1 "mild") [1, 1] 2 (by decide) (by decide),
    show (weather.filter 1 "cool").data.length = 3 from by decide,
    show (weather.filter 1 "hot").data.length = 3 from by decide,
    show (weather.filter 1 "mild").data.length = 2 from by decide,
    show weather.data.length = 8 from by decide]
  norm_num

theorem weather_gain2 (o : IterOrder) :
    informationGain o weather 2 = entropy o weather - 5 / 8 * countsEntropy [3, 2] 5
      - 3 / 8 * countsEntropy [2, 1] 3 := by
  unfold informationGain
  rw [show weather.getUniqueValues 2 = ["high", "normal"] from by decide]
  simp only [List.foldl_cons, List.foldl_nil]
  rw [entropy_eq_countsEntropy o (weather.filter 2 "high") [3, 2] 5 (by decide) (by decide),
    entropy_eq_countsEntropy o (weather.filter 2 "normal") [2, 1] 3 (by decide) (by decide),
    show (weather.filter 2 "high").data.length = 5 from by decide,
    show (weather.filter 2 "normal").data.length = 3 from by decide,
    show weather.data.length = 8 from by decide]
  norm_num

theorem weather_gain3 (o : IterOrder) :
    informationGain o weather 3 = entropy o weather - 3 / 8 * countsEntropy [2, 1] 3
      - 5 / 8 * countsEntropy [2, 3] 5 := by
  unfold informationGain
  rw [show weather.getUniqueValues 3 = ["strong", "weak"] from by decide]
  simp only [List.foldl_cons, List.foldl_nil]
  rw [entropy_eq_countsEntropy o (weather.filter 3 "strong") [2, 1] 3 (by decide) (by decide),
    entropy_eq_countsEntropy o (weather.filter 3 "weak") [2, 3] 5 (by decide) (by decide),
    show (weather.filter 3 "strong").data.length = 3 from by decide,
    show (weather.filter 3 "weak").data.length = 5 from by decide,
    show weather.data.length = 8 from by decide]
  norm_num

theorem weather_gain_lt (o : IterOrder) :
    informationGain o weather 1 < informationGain o weather 0
    ∧ informationGain o weather 2 < informationGain o weather 0
    ∧ informationGain o weather 3 < informationGain o weather 0 := by
  rw [weather_gain0, weather_gain1, weather_gain2, weather_gain3]
  have h21 : 0 < countsEntropy [2, 1] 3 := countsEntropy_pos _ _ (by decide) (by decide)
  have h11 : 0 < countsEntropy [1, 1] 2 := countsEntropy_pos _ _ (by decide) (by decide)
  have h32 : 0 < countsEntropy [3, 2] 5 := countsEntropy_pos _ _ (by decide) (by decide)
  have h23 : 0 < countsEntropy [2, 3] 5 := countsEntropy_pos _ _ (by decide) (by decide)
  refine ⟨?_, ?_, ?_⟩ <;> linarith

theorem weather_best (o : IterOrder) : bestAttribute o weather [0, 1, 2, 3] = 0 := by
  obtain ⟨h1, h2, h3⟩ := weather_gain_lt o
  have h0 : informationGain o weather 0 > -1 := by
    linarith [informationGain_nonneg o weather 0]
  unfold bestAttribute
  simp only [bestAttributeLoop]
  rw [if_pos h0, if_neg (not_lt.mpr h1.le), if_neg (not_lt.mpr h2.le),
    if_neg (not_lt.mpr h3.le)]

theorem weather_tree (o : IterOrder) :
    buildTree o weather [0, 1, 2, 3]
      = TreeNode.node "Outlook"
          [("overcast", buildTree o (weather.filter 0 "overcast") [1, 2, 3]),
           ("rain", buildTree o (weather.filter 0 "rain") [1, 2, 3]),
           ("sunny", TreeNode.leaf "no")] := by
  have hs : buildTree o (weather.filter 0 "sunny") [1, 2, 3] = TreeNode.leaf "no" :=
    buildTree_pure_label o (weather.filter 0 "sunny") [1, 2, 3]
      (by rw [getClassCounts_length]; decide) ["sunny", "hot", "high", "weak", "no"] (by decide)
  rw [buildTree_split o weather [0, 1, 2, 3] (by rw [getClassCounts_length]; decide)
    (by decide) (by rw [weather_best]; decide), weather_best,
    show weather.getUniqueValues 0 = ["overcast", "rain", "sunny"] from by decide]
  simp only [List.map_cons, List.map_nil]
  rw [show ([0, 1, 2, 3] : List Int).erase 0 = [1, 2, 3] from by decide, hs,
    show at_ weather.attributes 0 = "Outlook" from by decide]

/-- C1: on the dataset of `main`, with candidates 0, 1, 2, 3 and for every iteration order
of the count map, the attribute 0 ("Outlook") has a strictly larger information gain than
the other three and is selected; `buildTree` returns an internal node named "Outlook" whose
"sunny" child is a leaf labelled "no"; `classify` returns "no" for the instance of `main`
and for every instance of four values whose first value is "sunny". -/
theorem weather_end_to_end (o : IterOrder) :
    informationGain o weather 1 < informationGain o weather 0
    ∧ informationGain o weather 2 < informationGain o weather 0
    ∧ informationGain o weather 3 < informationGain o weather 0
    ∧ bestAttribute o weather [0, 1, 2, 3] = 0
    ∧ (buildTree o weather [0, 1, 2, 3]).attr = "Outlook"
    ∧ (buildTree o weather [0, 1, 2, 3]).children ≠ []
    ∧ (buildTree o weather [0, 1, 2, 3]).children.lookup "sunny" = some (TreeNode.leaf "no")
    ∧ classify (buildTree o weather [0, 1, 2, 3]) ["sunny", "cool", "high", "strong"]
        weather.attributes = "no"
    ∧ ∀ t h w : String,
        classify (buildTree o weather [0, 1, 2, 3]) ["sunny", t, h, w] weather.attributes
          = "no" := by
  obtain ⟨h1, h2, h3⟩ := weather_gain_lt o
  have hcl : ∀ t h w : String,
      classify (buildTree o weather [0, 1, 2, 3]) ["sunny", t, h, w] weather.attributes
        = "no" := by
    intro t h w
    rw [weather_tree]
    rfl
  refine ⟨h1, h2, h3, weather_best o, ?_, ?_, ?_, hcl _ _ _, hcl⟩
  · rw [weather_tree]; rfl
  · rw [weather_tree]; exact List.cons_ne_nil _ _
  · rw [weather_tree]; rfl

/-! ## Classification of training rows -/

theorem path_classify (o : IterOrder) (attributes inst : List String) (d : Dataset)
    (c : List Int) (d' : Dataset) (c' : List Int) (h : Path o attributes inst d c d' c') :
    classify (buildTree o d c) inst attributes = classify (buildTree o d' c') inst attributes := by
  induction h with
  | here d c => rfl
  | down d c d' c' h1 h2 h3 h4 _ ih =>
    rw [buildTree_split o d c h1 h2 h3, classify_node _ _ _ _ _ (List.ne_nil_of_mem h4),
      if_pos h4]
    exact ih

theorem indexOf_at (attributes : List String) (a : Int) (hnd : attributes.Nodup)
    (h0 : 0 ≤ a) (h1 : a < attributes.length) :
    attributes.indexOf (at_ attributes a) = a.toNat := by
  have hlt : a.toNat < attributes.length := by omega
  unfold at_
  rw [if_pos h0, List.getD_eq_getElem _ _ hlt]
  exact List.indexOf_getElem hnd _ hlt

theorem getD_eq_at (row : List String) (a : Int) (h0 : 0 ≤ a) :
    row.getD a.toNat "" = at_ row a := by
  unfold at_
  rw [if_pos h0]

theorem path_row (o : IterOrder) (attributes r : List String) (d : Dataset)
    (c : List Int) (d' : Dataset) (c' : List Int) (h : Path o attributes r d c d' c')
    (hattrs : d.attributes = attributes) (hnd : attributes.Nodup)
    (hvalid : ∀ a ∈ c, 0 ≤ a ∧ a < attributes.length) (hr : r ∈ d.data) : r ∈ d'.data := by
  induction h with
  | here d c => exact hr
  | down d c d' c' _ h2 h3 _ _ ih =>
    have hmem := bestAttribute_mem o d c h2
    obtain ⟨k0, k1⟩ := hvalid _ hmem
    apply ih hattrs (fun a ha => hvalid a (List.mem_of_mem_erase ha))
    rw [mem_filter_data]
    refine ⟨hr, ?_⟩
    rw [hattrs, indexOf_at attributes _ hnd k0 k1, getD_eq_at r _ k0]

/-- C2 (as amended): for a well-formed dataset whose attribute names are pairwise distinct
and every row `r` of it, if the traversal made by `classify` on the built tree follows
existing children down to a node built by the pure-class rule (the count map of the subset
that reached it has one entry), then `classify` returns the label of `r`. -/
theorem classify_training_row (o : IterOrder) (d : Dataset) (cands : List Int)
    (r : List String) (d' : Dataset) (c' : List Int)
    (hwf : WellFormed d cands) (hnames : d.attributes.Nodup) (hr : r ∈ d.data)
    (hpath : Path o d.attributes r d cands d' c')
    (hpure : (d'.getClassCounts o).length = 1) :
    classify (buildTree o d cands) r d.attributes = at_ r d.labelIndex := by
  have hvalid : ∀ a ∈ cands, 0 ≤ a ∧ a < d.attributes.length :=
    fun a ha => ⟨(hwf.2.2.2.1 a ha).1, (hwf.2.2.2.1 a ha).2.1⟩
  have hr' := path_row o d.attributes r d cands d' c' hpath rfl hnames hvalid hr
  rw [path_classify o d.attributes r d cands d' c' hpath,
    buildTree_pure_label o d' c' hpure r hr', classify_leaf,
    (called_layout o d cands d' c' (path_called o _ _ d cands d' c' hpath)).2]

theorem weather_path (o : IterOrder) :
    Path o weather.attributes ["sunny", "hot", "high", "weak", "no"] weather [0, 1, 2, 3]
      weatherSunny [1, 2, 3] := by
  have hb := weather_best o
  apply Path.down
  · rw [getClassCounts_length]; decide
  · decide
  · rw [hb]; decide
  · rw [hb]; decide
  · rw [hb]
    exact Path.here _ _

theorem classify_training_row_witness :
    classify (buildTree IterOrder.insertion weather [0, 1, 2, 3])
        ["sunny", "hot", "high", "weak", "no"] weather.attributes
      = at_ ["sunny", "hot", "high", "weak", "no"] weather.labelIndex :=
  classify_training_row IterOrder.insertion weather [0, 1, 2, 3]
    ["sunny", "hot", "high", "weak", "no"] weatherSunny [1, 2, 3] (by decide) (by decide)
    (by decide) (weather_path IterOrder.insertion) (by decide)

theorem sameNamed_best (o : IterOrder) : bestAttribute o sameNamed [1] = 1 := by
  have h := bestAttribute_mem o sameNamed [1] (by decide)
  simpa using h

theorem sameNamed_path (o : IterOrder) :
    Path o sameNamed.attributes ["p", "q", "yes"] sameNamed [1] (sameNamed.filter 1 "p") [] := by
  have hb := sameNamed_best o
  apply Path.down
  · rw [getClassCounts_length]; decide
  · decide
  · rw [hb]; decide
  · rw [hb]; decide
  · rw [hb]
    exact Path.here _ _

/-- C2 fails as stated: the dataset `sameNamed` is well-formed, the traversal for its row
`["p", "q", "yes"]` follows an existing child to a leaf built by the pure-class rule, and
`classify` returns "no", not the row's label "yes": the node splits on column 1, but the
name "A" of that column is resolved to column 0. -/
theorem same_name_misroutes :
    WellFormed sameNamed [1]
    ∧ ["p", "q", "yes"] ∈ sameNamed.data
    ∧ Path IterOrder.insertion sameNamed.attributes ["p", "q", "yes"] sameNamed [1]
        (sameNamed.filter 1 "p") []
    ∧ ((sameNamed.filter 1 "p").getClassCounts IterOrder.insertion).length = 1
    ∧ classify (buildTree IterOrder.insertion sameNamed [1]) ["p", "q", "yes"]
        sameNamed.attributes = "no"
    ∧ at_ ["p", "q", "yes"] sameNamed.labelIndex = "yes"
    ∧ classify (buildTree IterOrder.insertion sameNamed [1]) ["p", "q", "yes"]
        sameNamed.attributes ≠ at_ ["p", "q", "yes"] sameNamed.labelIndex := by
  have hcl : classify (buildTree IterOrder.insertion sameNamed [1]) ["p", "q", "yes"]
      sameNamed.attributes = "no" := by
    rw [path_classify _ _ _ _ _ _ _ (sameNamed_path IterOrder.insertion),
      buildTree_pure_label IterOrder.insertion (sameNamed.filter 1 "p") [] (by decide)
        ["q", "p", "no"] (by decide), classify_leaf]
    decide
  refine ⟨by decide, by decide, sameNamed_path _, by decide, hcl, by decide, ?_⟩
  rw [hcl]
  decide

/-! ## Filtering, entropy and gain: further properties -/

theorem filter_loop_eq (rows : List (List String)) (i : Int) (v : String)
    (acc : List (List String)) :
    rows.foldl (fun out row => if at_ row i = v then out ++ [row] else out) acc
      = acc ++ rows.filter (fun row => at_ row i = v) := by
  induction rows generalizing acc with
  | nil => simp
  | cons r rs ih =>
    rw [List.foldl_cons, ih]
    by_cases h : at_ r i = v
    · simp [List.filter_cons, h]
    · simp [List.filter_cons, h]

theorem filter_count (rows : List (List String)) (i : Int) (v : String) (row : List String) :
    (rows.filter (fun r => at_ r i = v)).count row
      = if at_ row i = v then rows.count row else 0 := by
  by_cases h : at_ row i = v
  · rw [if_pos h]
    exact List.count_filter (by simpa using h)
  · rw [if_neg h]
    apply List.count_eq_zero.mpr
    intro hm
    have := (List.mem_filter.mp hm).2
    simp only [decide_eq_true_eq] at this
    exact h this

/-- C11: `filter(i, v)` returns a dataset whose rows are exactly the rows of the original
with `row[i] == v`, in their original order and with their multiplicity (the rows appended
one by one by the loop of the source), and whose attribute names and label index are those
of the original. -/
theorem filter_spec (d : Dataset) (i : Int) (v : String) :
    (d.filter i v).data
        = d.data.foldl (fun out row => if at_ row i = v then out ++ [row] else out) []
    ∧ (d.filter i v).data.Sublist d.data
    ∧ (∀ row, row ∈ (d.filter i v).data ↔ row ∈ d.data ∧ at_ row i = v)
    ∧ (∀ row, (d.filter i v).data.count row = if at_ row i = v then d.data.count row else 0)
    ∧ (d.filter i v).attributes = d.attributes
    ∧ (d.filter i v).labelIndex = d.labelIndex := by
  refine ⟨?_, ?_, mem_filter_data d i v, filter_count d.data i v, rfl, rfl⟩
  · rw [filter_loop_eq]
    rfl
  · exact List.filter_sublist _

theorem counts_length_one (o : IterOrder) (d : Dataset) (hne : d.data ≠ [])
    (hsame : ∀ r ∈ d.data, ∀ r' ∈ d.data, at_ r d.labelIndex = at_ r' d.labelIndex) :
    (d.getClassCounts o).length = 1 := by
  rw [(getClassCounts_perm o d).length_eq, ← List.length_map (countsOf d.labels) Prod.fst]
  have hnd := countsOf_keys_nodup d.labels
  have hmem := countsOf_keys_mem d.labels
  obtain ⟨r0, hr0⟩ := List.exists_mem_of_ne_nil _ hne
  have hall : ∀ k ∈ (countsOf d.labels).map Prod.fst, k = at_ r0 d.labelIndex := by
    intro k hk
    have := (hmem k).mp hk
    simp only [Dataset.labels, List.mem_map] at this
    obtain ⟨r, hr, e⟩ := this
    rw [← e]
    exact hsame r hr r0 hr0
  have h0 : at_ r0 d.labelIndex ∈ (countsOf d.labels).map Prod.fst :=
    (hmem _).mpr (List.mem_map_of_mem _ hr0)
  generalize (countsOf d.labels).map Prod.fst = ks at hnd hall h0
  match ks, hnd, hall, h0 with
  | [_], _, _, _ => rfl
  | x :: y :: _, hnd, hall, _ =>
    have hx := hall x (by simp)
    have hy := hall y (by simp)
    have hne' : x ≠ y := by
      intro e
      have := (List.nodup_cons.mp hnd).1
      exact this (by rw [e]; simp)
    exact absurd (hx.trans hy.symm) hne'

/-- C12: for a non-empty dataset in which all rows carry the same label, the entropy is 0. -/
theorem entropy_single_label (o : IterOrder) (d : Dataset) (hne : d.data ≠ [])
    (hsame : ∀ r ∈ d.data, ∀ r' ∈ d.data, at_ r d.labelIndex = at_ r' d.labelIndex) :
    entropy o d = 0 :=
  entropy_pure o d (counts_length_one o d hne hsame)

theorem entropy_single_label_witness : entropy IterOrder.insertion weatherSunny = 0 :=
  entropy_single_label IterOrder.insertion weatherSunny (by decide) (by decide)

theorem informationGain_eq_list (o : IterOrder) (d : Dataset) (a : Int) :
    informationGain o d a = entropy o d - ((d.getUniqueValues a).map (fun v =>
      (((d.filter a v).data.length : ℝ) / (d.data.length : ℝ)) * entropy o (d.filter a v))).sum := by
  unfold informationGain
  rw [foldl_sub_eq (fun v => (((d.filter a v).data.length : ℝ) / (d.data.length : ℝ))
      * entropy o (d.filter a v))]

theorem weighted_entropy_nonneg (o : IterOrder) (d : Dataset) (a : Int) :
    0 ≤ ((d.getUniqueValues a).map (fun v =>
      (((d.filter a v).data.length : ℝ) / (d.data.length : ℝ)) * entropy o (d.filter a v))).sum := by
  apply List.sum_nonneg
  intro x hx
  obtain ⟨v, _, e⟩ := List.mem_map.mp hx
  rw [← e]
  exact mul_nonneg (by positivity) (entropy_nonneg o _)

/-- C14: the information gain, which is the entropy of the dataset minus the sum over the
unique values `v` of column `i` of `(|filter(i,v)| / |dataset|) * entropy(filter(i,v))`, lies
in the closed interval from 0 to the entropy of the dataset. -/
theorem informationGain_bounds (o : IterOrder) (d : Dataset) (i : Int) :
    informationGain o d i = entropy o d - ((d.getUniqueValues i).map (fun v =>
        (((d.filter i v).data.length : ℝ) / (d.data.length : ℝ))
          * entropy o (d.filter i v))).sum
    ∧ 0 ≤ informationGain o d i
    ∧ informationGain o d i ≤ entropy o d := by
  refine ⟨informationGain_eq_list o d i, informationGain_nonneg o d i, ?_⟩
  rw [informationGain_eq_list]
  linarith [weighted_entropy_nonneg o d i]

/-- C15: perfect split. When every subset `filter(i, v)`, for `v` among the unique values
of column `i`, contains only one distinct label, the information gain of `i` equals the
entropy of the dataset. -/
theorem informationGain_perfect_split (o : IterOrder) (d : Dataset) (i : Int)
    (hpure : ∀ v ∈ d.getUniqueValues i, ((d.filter i v).getClassCounts o).length = 1) :
    informationGain o d i = entropy o d := by
  rw [informationGain_eq_list]
  have hzero : (d.getUniqueValues i).map (fun v =>
      (((d.filter i v).data.length : ℝ) / (d.data.length : ℝ)) * entropy o (d.filter i v))
      = (d.getUniqueValues i).map (fun _ => (0 : ℝ)) := by
    apply List.map_congr_left
    intro v hv
    rw [entropy_pure o _ (hpure v hv), mul_zero]
  rw [hzero]
  simp

theorem informationGain_perfect_split_witness :
    informationGain IterOrder.insertion sameNamed 1 = entropy IterOrder.insertion sameNamed :=
  informationGain_perfect_split IterOrder.insertion sameNamed 1 (by decide)

/-- C18: for every value among the unique values of a column the filtered dataset has at
least one row; hence, when `buildTree` is started on a non-empty dataset, every dataset
passed to a recursive call is non-empty, and so is every subset on which `informationGain`
evaluates the entropy there: no division by the row count has a zero denominator. -/
theorem nonempty_preserved (o : IterOrder) (d : Dataset) (cands : List Int)
    (hne : d.data ≠ []) :
    (∀ i v, v ∈ d.getUniqueValues i → (d.filter i v).data ≠ [])
    ∧ ∀ d' c', Called o d cands d' c' →
        d'.data ≠ [] ∧ d'.data.length ≠ 0
        ∧ ∀ a v, v ∈ d'.getUniqueValues a →
            (d'.filter a v).data ≠ [] ∧ (d'.filter a v).data.length ≠ 0 := by
  refine ⟨fun i v hv => filter_nonempty d i v hv, ?_⟩
  intro d' c' hcall
  have h1 := called_nonempty o d cands d' c' hcall hne
  refine ⟨h1, fun e => h1 (List.length_eq_zero.mp e), ?_⟩
  intro a v hv
  have h2 := filter_nonempty d' a v hv
  exact ⟨h2, fun e => h2 (List.length_eq_zero.mp e)⟩

theorem nonempty_preserved_witness :
    (∀ i v, v ∈ weather.getUniqueValues i → (weather.filter i v).data ≠ [])
    ∧ ∀ d' c', Called IterOrder.insertion weather [0, 1, 2, 3] d' c' →
        d'.data ≠ [] ∧ d'.data.length ≠ 0
        ∧ ∀ a v, v ∈ d'.getUniqueValues a →
            (d'.filter a v).data ≠ [] ∧ (d'.filter a v).data.length ≠ 0 :=
  nonempty_preserved IterOrder.insertion weather [0, 1, 2, 3] (by decide)

theorem getClassCounts_length_card (o : IterOrder) (d : Dataset) :
    (d.getClassCounts o).length = d.labels.toFinset.card := by
  rw [(getClassCounts_perm o d).length_eq, ← List.length_map (countsOf d.labels) Prod.fst,
    ← List.toFinset_card_of_nodup (countsOf_keys_nodup d.labels)]
  congr 1
  ext k
  simp only [List.mem_toFinset]
  exact countsOf_keys_mem _ k

theorem sum_label_fractions (d : Dataset) (hne : d.data ≠ []) :
    ∑ l in d.labels.toFinset, ((d.labels.count l : ℝ) / (d.data.length : ℝ)) = 1 := by
  have hN : (0 : ℝ) < (d.data.length : ℝ) := by
    exact_mod_cast List.length_pos.mpr hne
  rw [← Finset.sum_div, ← Nat.cast_sum, List.sum_toFinset_count_eq_length]
  have : d.labels.length = d.data.length := by simp [Dataset.labels]
  rw [this]
  exact div_self hN.ne.symm

theorem entropy_eq_list (o : IterOrder) (d : Dataset) :
    entropy o d = ((d.getClassCounts o).map (fun lc : String × Nat =>
      -(((lc.2 : ℝ) / (d.data.length : ℝ))
        * Real.logb 2 ((lc.2 : ℝ) / (d.data.length : ℝ))))).sum := by
  unfold entropy
  rw [foldl_sub_eq (fun lc : String × Nat => ((lc.2 : ℝ) / (d.data.length : ℝ))
      * Real.logb 2 ((lc.2 : ℝ) / (d.data.length : ℝ)))]
  have : ∀ l : List (String × Nat),
      (l.map (fun lc : String × Nat => -(((lc.2 : ℝ) / (d.data.length : ℝ))
        * Real.logb 2 ((lc.2 : ℝ) / (d.data.length : ℝ))))).sum
      = -(l.map (fun lc : String × Nat => ((lc.2 : ℝ) / (d.data.length : ℝ))
        * Real.logb 2 ((lc.2 : ℝ) / (d.data.length : ℝ)))).sum := by
    intro l
    induction l with
    | nil => simp
    | cons x xs ih => simp only [List.map_cons, List.sum_cons, ih]; ring
  rw [this]
  ring

theorem entropy_le_logb (o : IterOrder) (d : Dataset) (hne : d.data ≠ []) :
    entropy o d ≤ Real.logb 2 ((d.getClassCounts o).length : ℝ) := by
  rw [getClassCounts_length_card, entropy_eq_sum, ← Finset.sum_div]
  unfold Real.logb
  apply div_le_div_of_nonneg_right _ log_two_pos.le
  have hcard : 0 < d.labels.toFinset.card := by
    apply Finset.card_pos.mpr
    obtain ⟨r, hr⟩ := List.exists_mem_of_ne_nil _ hne
    exact ⟨at_ r d.labelIndex, List.mem_toFinset.mpr (List.mem_map_of_mem _ hr)⟩
  have hk : (0 : ℝ) < (d.labels.toFinset.card : ℝ) := by exact_mod_cast hcard
  have hw : ∑ _l in d.labels.toFinset, (1 / (d.labels.toFinset.card : ℝ)) = 1 := by
    rw [Finset.sum_const, nsmul_eq_mul]
    field_simp
  have key := ConcaveOn.le_map_sum Real.concaveOn_negMulLog
    (t := d.labels.toFinset)
    (w := fun _ => 1 / (d.labels.toFinset.card : ℝ))
    (p := fun l => (d.labels.count l : ℝ) / (d.data.length : ℝ))
    (fun _ _ => by positivity) hw (fun l _ => by
      simp only [Set.mem_Ici]
      positivity)
  simp only [smul_eq_mul, ← Finset.mul_sum] at key
  rw [sum_label_fractions d hne, mul_one] at key
  have hneg : Real.negMulLog (1 / (d.labels.toFinset.card : ℝ))
      = 1 / (d.labels.toFinset.card : ℝ) * Real.log (d.labels.toFinset.card : ℝ) := by
    unfold Real.negMulLog
    rw [one_div, Real.log_inv]
    ring
  rw [hneg] at key
  have := mul_le_mul_of_nonneg_left key hk.le
  rw [← mul_assoc, ← mul_assoc, mul_one_div_cancel hk.ne.symm, one_mul, one_mul] at this
  exact this

/-- C13: for a non-empty dataset with `k` distinct labels the entropy, which is the sum over
the distinct labels of `-(c/n) * log2(c/n)`, is at least 0 and at most `log2 k`. -/
theorem entropy_bounds (o : IterOrder) (d : Dataset) (hne : d.data ≠ []) :
    entropy o d = ((d.getClassCounts o).map (fun lc : String × Nat =>
        -(((lc.2 : ℝ) / (d.data.length : ℝ))
          * Real.logb 2 ((lc.2 : ℝ) / (d.data.length : ℝ))))).sum
    ∧ 0 ≤ entropy o d
    ∧ entropy o d ≤ Real.logb 2 ((d.getClassCounts o).length : ℝ) :=
  ⟨entropy_eq_list o d, entropy_nonneg o d, entropy_le_logb o d hne⟩

theorem entropy_bounds_witness :
    entropy IterOrder.insertion weather
      = ((weather.getClassCounts IterOrder.insertion).map (fun lc : String × Nat =>
        -(((lc.2 : ℝ) / (weather.data.length : ℝ))
          * Real.logb 2 ((lc.2 : ℝ) / (weather.data.length : ℝ))))).sum
    ∧ 0 ≤ entropy IterOrder.insertion weather
    ∧ entropy IterOrder.insertion weather
        ≤ Real.logb 2 ((weather.getClassCounts IterOrder.insertion).length : ℝ) :=
  entropy_bounds IterOrder.insertion weather (by decide)

/-! ## The empty dataset -/

theorem getClassCounts_nil (o : IterOrder) (d : Dataset) (he : d.data = []) :
    d.getClassCounts o = [] := by
  have := getClassCounts_perm o d
  simp only [Dataset.labels, he, List.map_nil, countsOf, List.foldl_nil] at this
  exact List.Perm.eq_nil this

theorem informationGain_empty (o : IterOrder) (d : Dataset) (a : Int) (he : d.data = []) :
    informationGain o d a = 0 := by
  rw [informationGain_eq_list, entropy_empty o d he, getUniqueValues_nil d a he]
  simp

theorem bestAttribute_empty (o : IterOrder) (d : Dataset) (a : Int) (rest : List Int)
    (he : d.data = []) : bestAttribute o d (a :: rest) = a := by
  obtain ⟨pre, post, hdec, hpre, _⟩ := bestAttribute_split o d (a :: rest) (List.cons_ne_nil _ _)
  cases pre with
  | nil =>
    simp only [List.nil_append, List.cons.injEq] at hdec
    exact hdec.1.symm
  | cons b pre' =>
    have := hpre b (List.mem_cons_self _ _)
    rw [informationGain_empty o d _ he, informationGain_empty o d _ he] at this
    exact absurd this (lt_irrefl _)

theorem buildTree_empty_cons (o : IterOrder) (d : Dataset) (a : Int) (rest : List Int)
    (he : d.data = []) (ha : 0 ≤ a) :
    buildTree o d (a :: rest) = TreeNode.node (at_ d.attributes a) [] := by
  have hb := bestAttribute_empty o d a rest he
  have hc : (d.getClassCounts o).length ≠ 1 := by
    rw [getClassCounts_nil o d he]
    decide
  rw [buildTree_split o d (a :: rest) hc (List.cons_ne_nil _ _) (by rw [hb]; omega), hb,
    getUniqueValues_nil d a he]
  rfl

theorem buildTree_empty_nil (o : IterOrder) (d : Dataset) (he : d.data = []) :
    buildTree o d [] = TreeNode.leaf "" := by
  have hc : (d.getClassCounts o).length ≠ 1 := by
    rw [getClassCounts_nil o d he]
    decide
  rw [buildTree_nil o d hc, getClassCounts_nil o d he]
  rfl

/-- C20: for a dataset with zero rows the class-count map has no entry, so the pure-class
rule does not apply; with an empty candidate set `buildTree` returns a leaf labelled with
the empty string, and with a non-empty ascending set of valid candidates it returns a node
named after the smallest candidate, without children; in both cases `classify` returns the
empty string for every instance, which is neither "Unknown" nor a label of a row. -/
theorem buildTree_empty_dataset (o : IterOrder) (d : Dataset) (cands : List Int)
    (inst attributes : List String) (he : d.data = [])
    (hasc : cands.Pairwise (fun a b => a < b)) (hvalid : ∀ a ∈ cands, 0 ≤ a) :
    d.getClassCounts o = []
    ∧ (d.getClassCounts o).length ≠ 1
    ∧ buildTree o d [] = TreeNode.leaf ""
    ∧ (∀ a rest, cands = a :: rest →
        buildTree o d cands = TreeNode.node (at_ d.attributes a) []
        ∧ (buildTree o d cands).children = []
        ∧ ∀ b ∈ cands, a ≤ b)
    ∧ classify (buildTree o d cands) inst attributes = ""
    ∧ classify (buildTree o d cands) inst attributes ≠ "Unknown"
    ∧ ¬ ∃ row ∈ d.data, at_ row d.labelIndex = classify (buildTree o d cands) inst attributes := by
  have hcl : classify (buildTree o d cands) inst attributes = "" := by
    cases cands with
    | nil => rw [buildTree_empty_nil o d he, classify_leaf]
    | cons a rest =>
      rw [buildTree_empty_cons o d a rest he (hvalid a (List.mem_cons_self _ _))]
      exact node_nil_classify _ _ _
  refine ⟨getClassCounts_nil o d he, ?_, buildTree_empty_nil o d he, ?_, hcl, ?_, ?_⟩
  · rw [getClassCounts_nil o d he]
    decide
  · intro a rest hc
    subst hc
    have hb := buildTree_empty_cons o d a rest he (hvalid a (List.mem_cons_self _ _))
    refine ⟨hb, by rw [hb]; rfl, ?_⟩
    intro b hb'
    rcases List.mem_cons.mp hb' with e | hmem
    · exact le_of_eq e.symm
    · exact le_of_lt ((List.pairwise_cons.mp hasc).1 b hmem)
  · rw [hcl]
    decide
  · rw [he]
    simp

theorem buildTree_empty_dataset_witness :
    (weather.filter 0 "foggy").getClassCounts IterOrder.insertion = []
    ∧ ((weather.filter 0 "foggy").getClassCounts IterOrder.insertion).length ≠ 1
    ∧ buildTree IterOrder.insertion (weather.filter 0 "foggy") [] = TreeNode.leaf ""
    ∧ (∀ a rest, [1, 2, 3] = a :: rest →
        buildTree IterOrder.insertion (weather.filter 0 "foggy") [1, 2, 3]
          = TreeNode.node (at_ (weather.filter 0 "foggy").attributes a) []
        ∧ (buildTree IterOrder.insertion (weather.filter 0 "foggy") [1, 2, 3]).children = []
        ∧ ∀ b ∈ [1, 2, 3], a ≤ b)
    ∧ classify (buildTree IterOrder.insertion (weather.filter 0 "foggy") [1, 2, 3])
        ["foggy", "hot", "high", "weak"] weather.attributes = ""
    ∧ classify (buildTree IterOrder.insertion (weather.filter 0 "foggy") [1, 2, 3])
        ["foggy", "hot", "high", "weak"] weather.attributes ≠ "Unknown"
    ∧ ¬ ∃ row ∈ (weather.filter 0 "foggy").data,
        at_ row (weather.filter 0 "foggy").labelIndex
          = classify (buildTree IterOrder.insertion (weather.filter 0 "foggy") [1, 2, 3])
              ["foggy", "hot", "high", "weak"] weather.attributes :=
  buildTree_empty_dataset IterOrder.insertion (weather.filter 0 "foggy") [1, 2, 3]
    ["foggy", "hot", "high", "weak"] weather.attributes (by decide) (by decide) (by decide)

/-! ## Attribute names of internal nodes -/

theorem at_mem (attributes : List String) (a : Int) (h0 : 0 ≤ a)
    (h1 : a < attributes.length) : at_ attributes a ∈ attributes := by
  have hlt : a.toNat < attributes.length := by omega
  unfold at_
  rw [if_pos h0, List.getD_eq_getElem _ _ hlt]
  exact List.getElem_mem _

/-- C16: when every candidate is a valid index into the attribute-name list, every internal
node of the built tree carries the name `dataset.attributes[i]` of some root candidate `i`;
so the name lookup of `classify` over the same list finds the name at a position smaller
than the length of the list, and an instance with one value per attribute is never indexed
past its end. -/
theorem internal_names_resolve (o : IterOrder) (d : Dataset) (cands : List Int)
    (t : TreeNode) (hvalid : ∀ a ∈ cands, 0 ≤ a ∧ a < d.attributes.length)
    (ht : t ∈ (buildTree o d cands).subtrees) (hch : t.children ≠ []) :
    (∃ i ∈ cands, t.attr = at_ d.attributes i)
    ∧ t.attr ∈ d.attributes
    ∧ d.attributes.indexOf t.attr < d.attributes.length
    ∧ ∀ inst : List String, inst.length = d.attributes.length →
        d.attributes.indexOf t.attr < inst.length := by
  obtain ⟨d', c', hcall, heq⟩ := subtrees_called o d cands t ht
  rw [heq] at hch
  obtain ⟨⟨k1, k2, k3⟩, _⟩ := data_ne_nil_of_children o d' c' hch
  have hmem := called_cands o d cands d' c' hcall _ (bestAttribute_mem o d' c' k2)
  have hattr : t.attr = at_ d.attributes (bestAttribute o d' c') := by
    rw [heq, buildTree_split o d' c' k1 k2 k3, attr_node, (called_layout o d cands d' c' hcall).1]
  obtain ⟨h0, h1⟩ := hvalid _ hmem
  have hin : t.attr ∈ d.attributes := by
    rw [hattr]
    exact at_mem _ _ h0 h1
  refine ⟨⟨_, hmem, hattr⟩, hin, List.indexOf_lt_length.mpr hin, ?_⟩
  intro inst hlen
  rw [hlen]
  exact List.indexOf_lt_length.mpr hin

theorem internal_names_resolve_witness :
    (∃ i ∈ [0, 1, 2, 3],
      (buildTree IterOrder.insertion weather [0, 1, 2, 3]).attr = at_ weather.attributes i)
    ∧ (buildTree IterOrder.insertion weather [0, 1, 2, 3]).attr ∈ weather.attributes
    ∧ weather.attributes.indexOf (buildTree IterOrder.insertion weather [0, 1, 2, 3]).attr
        < weather.attributes.length
    ∧ ∀ inst : List String, inst.length = weather.attributes.length →
        weather.attributes.indexOf (buildTree IterOrder.insertion weather [0, 1, 2, 3]).attr
          < inst.length :=
  internal_names_resolve IterOrder.insertion weather [0, 1, 2, 3]
    (buildTree IterOrder.insertion weather [0, 1, 2, 3]) (by decide) (subtrees_self _)
    (by rw [weather_tree]; exact List.cons_ne_nil _ _)

/-! ## Zero training error on consistent data -/

theorem path_missingChild (o : IterOrder) (attributes inst : List String) (d : Dataset)
    (c : List Int) (d' : Dataset) (c' : List Int) (h : Path o attributes inst d c d' c') :
    missingChild (buildTree o d c) inst attributes
      = missingChild (buildTree o d' c') inst attributes := by
  induction h with
  | here d c => rfl
  | down d c d' c' h1 h2 h3 h4 _ ih =>
    rw [buildTree_split o d c h1 h2 h3, missingChild_node _ _ _ _ _ (List.ne_nil_of_mem h4),
      if_pos h4]
    exact ih

/-- On consistent data the traversal for a training row follows existing children down to
a node built by the pure-class rule. -/
theorem pure_path_exists (o : IterOrder) (d : Dataset) (cands : List Int)
    (hvalid : ∀ a ∈ cands, 0 ≤ a ∧ a < d.attributes.length) (hnames : d.attributes.Nodup)
    (hcons : ∀ r1 ∈ d.data, ∀ r2 ∈ d.data, (∀ j ∈ cands, at_ r1 j = at_ r2 j) →
      at_ r1 d.labelIndex = at_ r2 d.labelIndex) :
    ∀ d' c', ∀ r ∈ d'.data, d'.attributes = d.attributes → d'.labelIndex = d.labelIndex →
      (∀ a ∈ c', a ∈ cands) → c'.Nodup → (∀ row ∈ d'.data, row ∈ d.data) →
      (∀ r1 ∈ d'.data, ∀ r2 ∈ d'.data, ∀ j ∈ cands, j ∉ c' → at_ r1 j = at_ r2 j) →
      ∃ d'' c'', Path o d.attributes r d' c' d'' c'' ∧ (d''.getClassCounts o).length = 1 := by
  apply buildTree_induct o
  intro d' c' ih r hr hattrs hli hsub hnd hrows hagree
  by_cases hp : (d'.getClassCounts o).length = 1
  · exact ⟨d', c', Path.here d' c', hp⟩
  · have hc : c' ≠ [] := by
      intro e
      apply hp
      apply counts_length_one o d' (List.ne_nil_of_mem hr)
      intro r1 h1 r2 h2
      rw [hli]
      apply hcons r1 (hrows r1 h1) r2 (hrows r2 h2)
      intro j hj
      exact hagree r1 h1 r2 h2 j hj (by rw [e]; exact List.not_mem_nil j)
    have hs : bestAttribute o d' c' ≠ -1 :=
      bestAttribute_ne_sentinel o d' c' hc (fun a ha => (hvalid a (hsub a ha)).1)
    have hmem := bestAttribute_mem o d' c' hc
    obtain ⟨k0, k1⟩ := hvalid _ (hsub _ hmem)
    have hx : r.getD (d.attributes.indexOf (at_ d'.attributes (bestAttribute o d' c'))) ""
        = at_ r (bestAttribute o d' c') := by
      rw [hattrs, indexOf_at d.attributes _ hnames k0 k1, getD_eq_at r _ k0]
    have hxmem : r.getD (d.attributes.indexOf (at_ d'.attributes (bestAttribute o d' c'))) ""
        ∈ d'.getUniqueValues (bestAttribute o d' c') := by
      rw [hx]
      exact (mem_getUniqueValues d' _ _).mpr ⟨r, hr, rfl⟩
    obtain ⟨d'', c'', hpath, hpure⟩ := ih hp hc hs
      (r.getD (d.attributes.indexOf (at_ d'.attributes (bestAttribute o d' c'))) "") r
      ((mem_filter_data d' _ _ r).mpr ⟨hr, hx.symm⟩) hattrs hli
      (fun a ha => hsub a (List.mem_of_mem_erase ha)) (hnd.erase _)
      (fun row hrow => hrows row ((mem_filter_data d' _ _ row).mp hrow).1)
      (by
        intro r1 h1 r2 h2 j hj hnot
        have e1 := (mem_filter_data d' _ _ r1).mp h1
        have e2 := (mem_filter_data d' _ _ r2).mp h2
        by_cases hja : j = bestAttribute o d' c'
        · rw [hja, e1.2, e2.2]
        · apply hagree r1 e1.1 r2 e2.1 j hj
          intro hjc
          exact hnot ((List.mem_erase_of_ne hja).mpr hjc))
    exact ⟨d'', c'', Path.down d' c' d'' c'' hp hc hs hxmem hpath, hpure⟩

/-- C19: zero training error on consistent data. For a well-formed dataset whose attribute
names are pairwise distinct, in which any two rows that agree on all non-label columns have
the same label, with the candidate set equal to the set of all non-label column indices,
`classify` returns for every row of the dataset that row's label; the traversal never meets
a missing child and ends in a leaf built by the pure-class rule. -/
theorem zero_training_error (o : IterOrder) (d : Dataset) (cands : List Int)
    (r : List String) (hwf : WellFormed d cands) (hnames : d.attributes.Nodup)
    (hall : ∀ j : Int, 0 ≤ j → j < d.attributes.length + 1 → j ≠ d.labelIndex → j ∈ cands)
    (hcons : ∀ r1 ∈ d.data, ∀ r2 ∈ d.data,
      (∀ j : Int, 0 ≤ j → j < d.attributes.length + 1 → j ≠ d.labelIndex →
        at_ r1 j = at_ r2 j) →
      at_ r1 d.labelIndex = at_ r2 d.labelIndex)
    (hr : r ∈ d.data) :
    classify (buildTree o d cands) r d.attributes = at_ r d.labelIndex
    ∧ missingChild (buildTree o d cands) r d.attributes = false
    ∧ ∃ d' c', Path o d.attributes r d cands d' c' ∧ (d'.getClassCounts o).length = 1 := by
  have hvalid : ∀ a ∈ cands, 0 ≤ a ∧ a < d.attributes.length :=
    fun a ha => ⟨(hwf.2.2.2.1 a ha).1, (hwf.2.2.2.1 a ha).2.1⟩
  have hcons' : ∀ r1 ∈ d.data, ∀ r2 ∈ d.data, (∀ j ∈ cands, at_ r1 j = at_ r2 j) →
      at_ r1 d.labelIndex = at_ r2 d.labelIndex := by
    intro r1 h1 r2 h2 hag
    apply hcons r1 h1 r2 h2
    intro j j0 j1 j2
    exact hag j (hall j j0 j1 j2)
  have hnd : cands.Nodup := by
    refine List.Pairwise.imp ?_ hwf.2.2.2.2
    intro a b hab
    exact ne_of_lt hab
  obtain ⟨d', c', hpath, hpure⟩ := pure_path_exists o d cands hvalid hnames hcons' d cands r hr
    rfl rfl (fun a ha => ha) hnd (fun row hrow => hrow)
    (fun r1 _ r2 _ j hj hnot => absurd hj hnot)
  have hr' := path_row o d.attributes r d cands d' c' hpath rfl hnames hvalid hr
  have hleaf := buildTree_pure_label o d' c' hpure r hr'
  refine ⟨?_, ?_, d', c', hpath, hpure⟩
  · rw [path_classify o d.attributes r d cands d' c' hpath, hleaf, classify_leaf,
      (called_layout o d cands d' c' (path_called o _ _ d cands d' c' hpath)).2]
  · rw [path_missingChild o d.attributes r d cands d' c' hpath, hleaf, missingChild_leaf]

theorem weather_consistent :
    ∀ r1 ∈ weather.data, ∀ r2 ∈ weather.data,
      at_ r1 0 = at_ r2 0 → at_ r1 1 = at_ r2 1 → at_ r1 2 = at_ r2 2 → at_ r1 3 = at_ r2 3 →
      at_ r1 weather.labelIndex = at_ r2 weather.labelIndex := by
  decide

theorem zero_training_error_witness :
    classify (buildTree IterOrder.insertion weather [0, 1, 2, 3])
        ["rain", "cool", "normal", "strong", "no"] weather.attributes
      = at_ ["rain", "cool", "normal", "strong", "no"] weather.labelIndex
    ∧ missingChild (buildTree IterOrder.insertion weather [0, 1, 2, 3])
        ["rain", "cool", "normal", "strong", "no"] weather.attributes = false
    ∧ ∃ d' c', Path IterOrder.insertion weather.attributes
          ["rain", "cool", "normal", "strong", "no"] weather [0, 1, 2, 3] d' c'
        ∧ (d'.getClassCounts IterOrder.insertion).length = 1 :=
  zero_training_error IterOrder.insertion weather [0, 1, 2, 3]
    ["rain", "cool", "normal", "strong", "no"] (by decide) (by decide)
    (by
      intro j h0 h1 h2
      have h1' : j < 5 := h1
      have h2' : j ≠ 4 := h2
      have : j = 0 ∨ j = 1 ∨ j = 2 ∨ j = 3 := by omega
      rcases this with e | e | e | e <;> rw [e] <;> decide)
    (by
      intro r1 hr1 r2 hr2 hag
      exact weather_consistent r1 hr1 r2 hr2
        (hag 0 (by decide) (by decide) (by decide)) (hag 1 (by decide) (by decide) (by decide))
        (hag 2 (by decide) (by decide) (by decide)) (hag 3 (by decide) (by decide) (by decide)))
    (by decide)

/-! ## Rendering -/

theorem printTree_no_children (co : ChildOrder) (a l indent : String) :
    printTree co (TreeNode.mk a [] l) indent = [indent ++ "Label: " ++ l] := by
  rw [printTree]
  simp

theorem printTree_children (co : ChildOrder) (a l indent : String)
    (cs : List (String × TreeNode)) (h : cs ≠ []) :
    printTree co (TreeNode.mk a cs l) indent
      = (indent ++ "Attribute: " ++ a) ::
          ((co.ord cs).map (fun p =>
            (indent ++ "  Value: " ++ p.1) :: printTree co p.2 (indent ++ "    "))).flatten := by
  rw [printTree]
  have he : cs.isEmpty = false := by
    cases cs with
    | nil => exact absurd rfl h
    | cons x xs => rfl
  simp only [he, Bool.false_eq_true, if_false]
  rw [List.attach_map_val (co.ord cs) (fun p =>
    (indent ++ "  Value: " ++ p.1) :: printTree co p.2 (indent ++ "    "))]

theorem printTree_head (co : ChildOrder) (t : TreeNode) (indent : String) :
    ∃ rest, printTree co t indent
      = (indent ++ (if t.children.isEmpty then "Label: " ++ t.label
          else "Attribute: " ++ t.attr)) :: rest := by
  cases t with
  | mk a cs l =>
    cases cs with
    | nil =>
      rw [printTree_no_children]
      refine ⟨[], congrArg₂ List.cons ?_ rfl⟩
      simp [TreeNode.children, TreeNode.label, String.append_assoc]
    | cons x xs =>
      rw [printTree_children co a l indent (x :: xs) (List.cons_ne_nil _ _)]
      refine ⟨_, congrArg₂ List.cons ?_ rfl⟩
      simp [TreeNode.children, TreeNode.attr, String.append_assoc]

theorem smallTree_lines :
    printTree ChildOrder.stored smallTree "" = ["Attribute: A", "  Value: x", "    Label: l"] := by
  unfold smallTree TreeNode.node TreeNode.leaf
  rw [printTree_children _ _ _ _ _ (List.cons_ne_nil _ _)]
  simp only [ChildOrder.stored, List.map_cons, List.map_nil, printTree_no_children,
    List.flatten, List.append_nil, List.cons_append, List.nil_append]
  decide

theorem value_line_eq (s v : String) : s ++ "  Value: " ++ v = s ++ "  " ++ "Value: " ++ v := by
  have : "  Value: " = "  " ++ "Value: " := by decide
  rw [this, String.append_assoc s "  " "Value: "]

/-- C17 (as amended): with `printTree` as the list of output lines, an internal node at
indent `s` prints the line "Attribute: <name>" at `s`, then for every child the line
"Value: <value>" two spaces deeper than `s`, followed by the lines of the child's subtree,
whose first line is four spaces deeper than `s`; a node without children prints the single
line "Label: <label>" at its indent. -/
theorem printTree_indentation (co : ChildOrder) (t : TreeNode) (s : String)
    (h : t.children ≠ []) :
    printTree co t s
      = (s ++ "Attribute: " ++ t.attr) ::
          ((co.ord t.children).map (fun p =>
            (s ++ "  " ++ "Value: " ++ p.1) :: printTree co p.2 (s ++ "    "))).flatten
    ∧ (∀ p ∈ t.children, s ++ "  " ++ "Value: " ++ p.1 ∈ printTree co t s)
    ∧ (∀ p ∈ t.children, ∃ rest, printTree co p.2 (s ++ "    ")
        = (s ++ "    " ++ (if p.2.children.isEmpty then "Label: " ++ p.2.label
            else "Attribute: " ++ p.2.attr)) :: rest)
    ∧ ∀ a l s', printTree co (TreeNode.mk a [] l) s' = [s' ++ "Label: " ++ l] := by
  cases t with
  | mk a cs l =>
    have hcs : cs ≠ [] := h
    have heq : printTree co (TreeNode.mk a cs l) s
        = (s ++ "Attribute: " ++ a) ::
          ((co.ord cs).map (fun p =>
            (s ++ "  " ++ "Value: " ++ p.1) :: printTree co p.2 (s ++ "    "))).flatten := by
      rw [printTree_children co a l s cs hcs]
      congr 2
      apply List.map_congr_left
      intro p _
      rw [value_line_eq]
    refine ⟨heq, ?_, fun p _ => printTree_head co p.2 (s ++ "    "),
      fun a' l' s' => printTree_no_children co a' l' s'⟩
    intro p hp
    rw [heq]
    apply List.mem_cons_of_mem
    rw [List.mem_flatten]
    refine ⟨(s ++ "  " ++ "Value: " ++ p.1) :: printTree co p.2 (s ++ "    "), ?_,
      List.mem_cons_self _ _⟩
    rw [List.mem_map]
    exact ⟨p, (co.perm cs).mem_iff.mpr hp, rfl⟩

theorem printTree_indentation_witness :
    printTree ChildOrder.stored smallTree ""
      = ("" ++ "Attribute: " ++ smallTree.attr) ::
          ((ChildOrder.stored.ord smallTree.children).map (fun p =>
            ("" ++ "  " ++ "Value: " ++ p.1)
              :: printTree ChildOrder.stored p.2 ("" ++ "    "))).flatten
    ∧ (∀ p ∈ smallTree.children,
        "" ++ "  " ++ "Value: " ++ p.1 ∈ printTree ChildOrder.stored smallTree "")
    ∧ (∀ p ∈ smallTree.children, ∃ rest, printTree ChildOrder.stored p.2 ("" ++ "    ")
        = ("" ++ "    " ++ (if p.2.children.isEmpty then "Label: " ++ p.2.label
            else "Attribute: " ++ p.2.attr)) :: rest)
    ∧ ∀ a l s', printTree ChildOrder.stored (TreeNode.mk a [] l) s' = [s' ++ "Label: " ++ l] :=
  printTree_indentation ChildOrder.stored smallTree "" (List.cons_ne_nil _ _)

/-- C17 fails as stated: for the node `smallTree` printed at the empty indent the output is
"Attribute: A", "  Value: x", "    Label: l". The value line is two spaces, not four, deeper
than the attribute line, and the first line of the subtree is four spaces, not eight,
deeper. -/
theorem render_indents_two_and_four :
    printTree ChildOrder.stored smallTree "" = ["Attribute: A", "  Value: x", "    Label: l"]
    ∧ "" ++ "    " ++ "Value: " ++ "x" ∉ printTree ChildOrder.stored smallTree ""
    ∧ "" ++ "        " ++ "Label: " ++ "l" ∉ printTree ChildOrder.stored smallTree "" := by
  rw [smallTree_lines]
  decide

/-! ## The selector in double arithmetic -/

set_option maxRecDepth 100000

theorem Dbl.toRat_over (x y : Dbl) :
    x.toRat = (x.over y : ℚ) * (2 : ℚ) ^ (min x.e y.e) := by
  unfold Dbl.toRat Dbl.over
  have hk : 0 ≤ x.e - min x.e y.e := by
    have := min_le_left x.e y.e
    omega
  have h2 : (2 : ℚ) ^ x.e = (2 : ℚ) ^ (x.e - min x.e y.e).toNat * (2 : ℚ) ^ (min x.e y.e) := by
    rw [← zpow_natCast, ← zpow_add₀ (by norm_num : (2 : ℚ) ≠ 0), Int.toNat_of_nonneg hk]
    congr 1
    ring
  rw [h2]
  push_cast
  ring

/-- The comparison of doubles is the comparison of the numbers they denote. -/
theorem Dbl.lt_iff_toRat (x y : Dbl) : Dbl.lt x y ↔ x.toRat < y.toRat := by
  rw [Dbl.toRat_over x y, Dbl.toRat_over y x, min_comm y.e x.e]
  have hpos : (0 : ℚ) < (2 : ℚ) ^ (min x.e y.e) := zpow_pos (by norm_num) _
  rw [mul_lt_mul_right hpos]
  unfold Dbl.lt
  exact Int.cast_lt.symm

theorem Dbl.toRat_neg_one : (⟨-1, 0⟩ : Dbl).toRat = -1 := by
  simp [Dbl.toRat]

theorem bestAttributeLoopFl_spec (log2 : Dbl → Dbl) (o : IterOrder) (d : Dataset)
    (cands : List Int) (st : Dbl × Int) :
    (bestAttributeLoopFl log2 o d cands st = st
      ∧ ∀ b ∈ cands, (informationGainFl log2 o d b).toRat ≤ st.1.toRat)
    ∨ ∃ pre post, cands = pre ++ (bestAttributeLoopFl log2 o d cands st).2 :: post
        ∧ (bestAttributeLoopFl log2 o d cands st).1
            = informationGainFl log2 o d (bestAttributeLoopFl log2 o d cands st).2
        ∧ st.1.toRat < (bestAttributeLoopFl log2 o d cands st).1.toRat
        ∧ (∀ b ∈ pre, (informationGainFl log2 o d b).toRat
            < (bestAttributeLoopFl log2 o d cands st).1.toRat)
        ∧ ∀ b ∈ post, (informationGainFl log2 o d b).toRat
            ≤ (bestAttributeLoopFl log2 o d cands st).1.toRat := by
  induction cands generalizing st with
  | nil => left; exact ⟨rfl, by simp⟩
  | cons a rest ih =>
    unfold bestAttributeLoopFl
    split
    · rename_i hgt
      rw [Dbl.lt_iff_toRat] at hgt
      rcases ih (informationGainFl log2 o d a, a) with
        ⟨heq, hall⟩ | ⟨pre, post, hdec, hg, hlt, hpre, hpost⟩
      · right
        refine ⟨[], rest, ?_, ?_, ?_, ?_, ?_⟩
        · rw [heq]; rfl
        · rw [heq]
        · rw [heq]; exact hgt
        · simp
        · rw [heq]; exact hall
      · right
        refine ⟨a :: pre, post, ?_, hg, lt_trans hgt hlt, ?_, hpost⟩
        · rw [List.cons_append, ← hdec]
        · intro b hb
          rcases List.mem_cons.mp hb with hb | hb
          · rw [hb]; exact hlt
          · exact hpre b hb
    · rename_i hngt
      rw [Dbl.lt_iff_toRat] at hngt
      have hle : (informationGainFl log2 o d a).toRat ≤ st.1.toRat := not_lt.mp hngt
      rcases ih st with ⟨heq, hall⟩ | ⟨pre, post, hdec, hg, hlt, hpre, hpost⟩
      · left
        refine ⟨heq, ?_⟩
        intro b hb
        rcases List.mem_cons.mp hb with hb | hb
        · rw [hb]; exact hle
        · exact hall b hb
      · right
        refine ⟨a :: pre, post, ?_, hg, hlt, ?_, hpost⟩
        · rw [List.cons_append, ← hdec]
        · intro b hb
          rcases List.mem_cons.mp hb with hb | hb
          · rw [hb]; exact lt_of_le_of_lt hle hlt
          · exact hpre b hb

/-- When the computed gain of some candidate exceeds the initial score -1, the selector
splits the candidate sequence around its result: strictly smaller computed gains before, no
larger computed gain after. -/
theorem bestAttributeFl_split (log2 : Dbl → Dbl) (o : IterOrder) (d : Dataset)
    (cands : List Int)
    (hgt : ∃ b ∈ cands, (-1 : ℚ) < (informationGainFl log2 o d b).toRat) :
    ∃ pre post, cands = pre ++ bestAttributeFl log2 o d cands :: post
      ∧ (∀ b ∈ pre, (informationGainFl log2 o d b).toRat
          < (informationGainFl log2 o d (bestAttributeFl log2 o d cands)).toRat)
      ∧ ∀ b ∈ post, (informationGainFl log2 o d b).toRat
          ≤ (informationGainFl log2 o d (bestAttributeFl log2 o d cands)).toRat := by
  rcases bestAttributeLoopFl_spec log2 o d cands (⟨-1, 0⟩, -1) with
    ⟨_, hall⟩ | ⟨pre, post, hdec, hg, _, hpre, hpost⟩
  · obtain ⟨b, hb, h2⟩ := hgt
    have h1 := hall b hb
    rw [Dbl.toRat_neg_one] at h1
    linarith
  · unfold bestAttributeFl
    rw [hg] at hpre hpost
    exact ⟨pre, post, hdec, hpre, hpost⟩

theorem neg_one_lt_toRat (x : Dbl) (h : Dbl.lt ⟨-1, 0⟩ x) : (-1 : ℚ) < x.toRat := by
  rw [Dbl.lt_iff_toRat, Dbl.toRat_neg_one] at h
  exact h

theorem perm_pair (x y : String × Nat) (l : List (String × Nat)) (h : l.Perm [x, y]) :
    l = [x, y] ∨ l = [y, x] := by
  have hl := h.length_eq
  match l, hl, h with
  | [u, v], _, h =>
    have hu : u ∈ [x, y] := h.subset (List.mem_cons_self u _)
    have hv : v ∈ [x, y] := h.subset (by simp)
    have hx : x ∈ [u, v] := h.symm.subset (List.mem_cons_self x _)
    have hy : y ∈ [u, v] := h.symm.subset (by simp)
    simp only [List.mem_cons, List.mem_singleton, List.not_mem_nil, or_false] at hu hv hx hy
    rcases hu with hu | hu <;> rcases hv with hv | hv <;> subst hu <;> subst hv
    · rcases hy with hy | hy <;> simp [hy]
    · simp
    · simp
    · rcases hx with hx | hx <;> simp [hx]

/-- With two equal counts `c` among `n` rows, where `c / n` is the double 0.5, and with
`log2(0.5) = -1.0`, the computed entropy is the double 1.0 in every iteration order. -/
theorem entropyFl_two_equal (log2 : Dbl → Dbl) (o : IterOrder) (d : Dataset)
    (k l : String) (c : Nat) (hc : d.insertedCounts = [(k, c), (l, c)])
    (hdiv : Dbl.div (Dbl.ofCount c) (Dbl.ofCount d.data.length)
      = Dbl.div (Dbl.ofCount 1) (Dbl.ofCount 2))
    (hlog : log2 (Dbl.div (Dbl.ofCount 1) (Dbl.ofCount 2)) = Dbl.neg (Dbl.ofCount 1)) :
    entropyFl log2 o d = Dbl.ofCount 1 := by
  unfold entropyFl Dataset.getClassCounts
  have hp := o.perm d.insertedCounts
  rw [hc] at hp
  rcases perm_pair _ _ _ hp with h | h <;>
  · rw [hc, h]
    simp only [List.foldl, hdiv, hlog]
    decide

theorem entropyFl_tied (log2 : Dbl → Dbl) (o : IterOrder)
    (hlog : log2 (Dbl.div (Dbl.ofCount 1) (Dbl.ofCount 2)) = Dbl.neg (Dbl.ofCount 1)) :
    entropyFl log2 o tied = Dbl.ofCount 1
    ∧ entropyFl log2 o (tied.filter 0 "a") = Dbl.ofCount 1
    ∧ entropyFl log2 o (tied.filter 0 "b") = Dbl.ofCount 1
    ∧ entropyFl log2 o (tied.filter 1 "a") = Dbl.ofCount 1
    ∧ entropyFl log2 o (tied.filter 1 "b") = Dbl.ofCount 1 :=
  ⟨entropyFl_two_equal log2 o tied "y" "n" 3 (by decide) (by decide) hlog,
   entropyFl_two_equal log2 o (tied.filter 0 "a") "y" "n" 2 (by decide) (by decide) hlog,
   entropyFl_two_equal log2 o (tied.filter 0 "b") "y" "n" 1 (by decide) (by decide) hlog,
   entropyFl_two_equal log2 o (tied.filter 1 "a") "y" "n" 1 (by decide) (by decide) hlog,
   entropyFl_two_equal log2 o (tied.filter 1 "b") "y" "n" 2 (by decide) (by decide) hlog⟩

/-- The computed gains on `tied`: `(1.0 - 4.0/6.0 * 1.0) - 2.0/6.0 * 1.0` is `2^-54` and
`(1.0 - 2.0/6.0 * 1.0) - 4.0/6.0 * 1.0` is `2^-53`. -/
theorem informationGainFl_tied (log2 : Dbl → Dbl) (o : IterOrder)
    (hlog : log2 (Dbl.div (Dbl.ofCount 1) (Dbl.ofCount 2)) = Dbl.neg (Dbl.ofCount 1)) :
    informationGainFl log2 o tied 0 = ⟨4503599627370496, -106⟩
    ∧ informationGainFl log2 o tied 1 = ⟨4503599627370496, -105⟩ := by
  obtain ⟨h0, h1, h2, h3, h4⟩ := entropyFl_tied log2 o hlog
  have hv0 : tied.getUniqueValues 0 = ["a", "b"] := by decide
  have hv1 : tied.getUniqueValues 1 = ["a", "b"] := by decide
  unfold informationGainFl
  rw [hv0, hv1]
  simp only [List.foldl, h0, h1, h2, h3, h4]
  constructor <;> decide

theorem bestAttributeFl_tied (log2 : Dbl → Dbl) (o : IterOrder)
    (hlog : log2 (Dbl.div (Dbl.ofCount 1) (Dbl.ofCount 2)) = Dbl.neg (Dbl.ofCount 1)) :
    bestAttributeFl log2 o tied [0, 1] = 1 := by
  obtain ⟨h0, h1⟩ := informationGainFl_tied log2 o hlog
  unfold bestAttributeFl
  simp only [bestAttributeLoopFl, h0, h1]
  decide

theorem countsEntropy_two_equal (c n : Nat) (hc : 0 < c) (hn : n = 2 * c) :
    countsEntropy [c, c] n = 1 := by
  have hdiv : (c : ℝ) / (n : ℝ) = 2⁻¹ := by
    have : (c : ℝ) ≠ 0 := by exact_mod_cast hc.ne.symm
    rw [hn]
    push_cast
    field_simp
    ring
  have hlog : Real.logb 2 (2⁻¹ : ℝ) = -1 := by
    rw [Real.logb_inv, Real.logb_self_eq_one (by norm_num)]
  simp only [countsEntropy, List.foldl, hdiv, hlog]
  norm_num

/-- Over the reals both gains on `tied` are 0. -/
theorem informationGain_tied (o : IterOrder) :
    informationGain o tied 0 = 0 ∧ informationGain o tied 1 = 0 := by
  have e0 : entropy o tied = 1 := by
    rw [entropy_eq_countsEntropy o tied [3, 3] 6 (by decide) (by decide)]
    exact countsEntropy_two_equal 3 6 (by decide) (by decide)
  have e1 : entropy o (tied.filter 0 "a") = 1 := by
    rw [entropy_eq_countsEntropy o _ [2, 2] 4 (by decide) (by decide)]
    exact countsEntropy_two_equal 2 4 (by decide) (by decide)
  have e2 : entropy o (tied.filter 0 "b") = 1 := by
    rw [entropy_eq_countsEntropy o _ [1, 1] 2 (by decide) (by decide)]
    exact countsEntropy_two_equal 1 2 (by decide) (by decide)
  have e3 : entropy o (tied.filter 1 "a") = 1 := by
    rw [entropy_eq_countsEntropy o _ [1, 1] 2 (by decide) (by decide)]
    exact countsEntropy_two_equal 1 2 (by decide) (by decide)
  have e4 : entropy o (tied.filter 1 "b") = 1 := by
    rw [entropy_eq_countsEntropy o _ [2, 2] 4 (by decide) (by decide)]
    exact countsEntropy_two_equal 2 4 (by decide) (by decide)
  have hv0 : tied.getUniqueValues 0 = ["a", "b"] := by decide
  have hv1 : tied.getUniqueValues 1 = ["a", "b"] := by decide
  have l0 : (tied.filter 0 "a").data.length = 4 := by decide
  have l1 : (tied.filter 0 "b").data.length = 2 := by decide
  have l2 : (tied.filter 1 "a").data.length = 2 := by decide
  have l3 : (tied.filter 1 "b").data.length = 4 := by decide
  have l4 : tied.data.length = 6 := by decide
  constructor
  · rw [informationGain_eq_list, hv0]
    simp only [List.map, List.sum_cons, List.sum_nil, e0, e1, e2, l0, l1, l4]
    norm_num
  · rw [informationGain_eq_list, hv1]
    simp only [List.map, List.sum_cons, List.sum_nil, e0, e3, e4, l2, l3, l4]
    norm_num

/-- On exact real gains the selector takes candidate 0 on `tied`. -/
theorem bestAttribute_tied (o : IterOrder) : bestAttribute o tied [0, 1] = 0 := by
  obtain ⟨hmem, _, hfirst⟩ :=
    bestAttribute_argmax_exact o tied [0, 1] (by decide) (by decide)
  have h0 := (informationGain_tied o).1
  have h1 := (informationGain_tied o).2
  have hle : bestAttribute o tied [0, 1] ≤ 0 := by
    apply hfirst 0 (by decide)
    simp only [List.mem_cons, List.mem_singleton, List.not_mem_nil, or_false] at hmem
    rcases hmem with h | h <;> simp only [h, h0, h1]
  simp only [List.mem_cons, List.mem_singleton, List.not_mem_nil, or_false] at hmem
  omega

end DecisionTree
